import Mathlib

/-! # Horizon-line estimation pipeline: shallow embedding and verified properties

Source files embedded here:

* `src/horizon_detect_interactive.cpp` : `fitPoly`, `pointAtX`, `runHorizonDetection`
* `src/horizon.cpp`                    : `fitPoly`, `pointAtX`
* `src/histogram.cpp`                  : `createHistogram`
* `src/threshold_single.cpp`           : `createHistogram`

Conventions of the embedding.

* `double` arithmetic has two readings here.  In the namespaces `HorizonDetect` and
  `Horizon` the `double` values are exact rationals `ℚ` and no operation rounds: this is
  the *exact-arithmetic reading* of the source.  It is used only for the claims that are
  stated for exact arithmetic and for the claims that do not depend on the arithmetic
  (line filters, guards, control flow).  In the namespace `HorizonDetect.Rounded`, and in
  `createHistogram`, every floating-point operation is followed by `Binary64.round`: this
  is the *binary64 reading*, used for what the compiled code computes.  On some inputs the
  two readings of `fitPoly` give different results; the claims say which one they use.
* `std::pow(x, k)` for a non-negative integer `k` is `x ^ k`, with `x ^ 0 = 1` also for
  `x = 0`, as for `std::pow`.
* A floating-point division whose divisor is exactly zero cannot be given a rational
  value (IEEE-754 gives NaN or an infinity).  Functions that divide therefore return
  `Option`: `none` means that the C++ code *executed a division by an exactly zero
  divisor*.  The C++ code has no such check; `none` is not an error value of the source.
* `int` values are modelled by `Int` (pixel coordinates and trackbar values are far from
  the 32-bit limits); sizes, loop counters and the polynomial degree are `Nat`.
* The work arrays `mat` (`std::vector<std::vector<double>>`) and `coeffVec`
  (`std::vector<double>`) are modelled by their index functions, wrapped in a structure
  (exact-arithmetic reading), or by the lists of their entries (binary64 reading); every
  index used by the source is in range.
-/

namespace HorizonDetect

/-! ## Data model -/

/-- The type `cv::Point` (`cv::Point_<int>`): integer pixel coordinates. -/
structure Point where
  x : Int
  y : Int
deriving DecidableEq, Repr

/-- The type `cv::Vec4i`: a segment `(x1,y1)-(x2,y2)` stored as `ln[0..3]`. -/
structure Vec4i where
  x1 : Int
  y1 : Int
  x2 : Int
  y2 : Int
deriving DecidableEq, Repr

/-- The work matrix `mat` of `fitPoly`, by index function: `mat.get row col` is
`mat[row][col]`. -/
structure Mat where
  get : Nat → Nat → ℚ

/-- The work vector `coeffVec` of `fitPoly`, by index function: `vec.get i` is
`coeffVec[i]`. -/
structure Vec where
  get : Nat → ℚ

/-- Assignment `mat[r][c] = v`. -/
def Mat.set (mat : Mat) (r c : Nat) (v : ℚ) : Mat :=
  ⟨fun r' c' => if r' = r ∧ c' = c then v else mat.get r' c'⟩

/-- Assignment `coeffVec[i] = v`. -/
def Vec.set (vec : Vec) (i : Nat) (v : ℚ) : Vec :=
  ⟨fun i' => if i' = i then v else vec.get i'⟩

/-! ## `fitPoly` (src/horizon_detect_interactive.cpp, lines 27-78), exact-arithmetic reading

The loops of `fitPoly` with `double` taken as `ℚ`.  The binary64 reading of the same loops
is `HorizonDetect.Rounded.fitPoly` below. -/

/-- Lines 44-46: `sumVal = 0; for i: sumVal += pow(xVals[i], e)`. -/
def sumPow (points : List Point) (e : Nat) : ℚ :=
  points.foldl (fun sumVal p => sumVal + (p.x : ℚ) ^ e) 0

/-- Lines 50-52: `sumVal2 = 0; for i: sumVal2 += pow(xVals[i], row) * yVals[i]`. -/
def sumPowY (points : List Point) (row : Nat) : ℚ :=
  points.foldl (fun sumVal2 p => sumVal2 + (p.x : ℚ) ^ row * (p.y : ℚ)) 0

/-- Lines 42-53: the body of the `row` loop: fills `mat[row][0..n]` and `mat[row][n+1]`. -/
def fillRow (points : List Point) (n row : Nat) (mat : Mat) : Mat :=
  ((List.range (n + 1)).foldl
      (fun m col => m.set row col (sumPow points (row + col))) mat).set
    row (n + 1) (sumPowY points row)

/-- Lines 39-54: the `(n+1) x (n+2)` augmented matrix, zero-initialised and then filled. -/
def buildMatrix (points : List Point) (n : Nat) : Mat :=
  (List.range (n + 1)).foldl (fun m row => fillRow points n row m) ⟨fun _ _ => 0⟩

/-- Lines 62-64: `t = mat[k][i] / mat[i][i]; for j in 0..n+1: mat[k][j] -= t * mat[i][j]`.
The result is `none` when the divisor `mat[i][i]` is zero. -/
def elimRow (n i k : Nat) (mat : Mat) : Option Mat :=
  if mat.get i i = 0 then none
  else
    let t := mat.get k i / mat.get i i
    some ((List.range (n + 2)).foldl (fun m j => m.set k j (m.get k j - t * m.get i j)) mat)

/-- Lines 60-65: the loop `for k = i+1 .. n`. -/
def elimCol (n i : Nat) (mat : Mat) : Option Mat :=
  (List.range' (i + 1) (n - i)).foldlM (fun m k => elimRow n i k m) mat

/-- Lines 58-66: the loop `for i = 0 .. n-1` (forward elimination, no pivoting). -/
def eliminate (n : Nat) (mat : Mat) : Option Mat :=
  (List.range n).foldlM (fun m i => elimCol n i m) mat

/-- Lines 69-75: the body of the back-substitution loop for row `i`.
The result is `none` when the divisor `mat[i][i]` is zero. -/
def backRow (n i : Nat) (mat : Mat) (coeffVec : Vec) : Option Vec :=
  let c1 := coeffVec.set i (mat.get i (n + 1))
  let c2 := (List.range (n + 1)).foldl
    (fun c j => if j ≠ i then c.set i (c.get i - mat.get i j * c.get j) else c) c1
  if mat.get i i = 0 then none else some (c2.set i (c2.get i / mat.get i i))

/-- Lines 57 and 67-76: `coeffVec` zero-initialised, then the loop `for i = n downto 0`. -/
def backSubst (n : Nat) (mat : Mat) : Option Vec :=
  (List.range (n + 1)).reverse.foldlM (fun c i => backRow n i mat c) ⟨fun _ => 0⟩

/-- The function `fitPoly(points, n)` in exact arithmetic: the returned `coeffVec` as the
list of its `n+1` entries, or `none` when a division by a zero pivot was executed.  With
rounding after every operation the pivots and the coefficients can differ: see
`HorizonDetect.Rounded.fitPoly`. -/
def fitPoly (points : List Point) (n : Nat) : Option (List ℚ) :=
  (eliminate n (buildMatrix points n)).bind fun mat =>
    (backSubst n mat).map fun coeffVec => (List.range (n + 1)).map coeffVec.get

/-! ## `pointAtX` (src/horizon_detect_interactive.cpp, lines 83-89), exact-arithmetic reading -/

/-- Lines 85-87: `y = 0; for i in 0..coeff.size(): y += pow(x, i) * coeff[i]`:
the unrounded value of the polynomial. -/
def polyValue (coeff : List ℚ) (x : ℚ) : ℚ :=
  (List.range coeff.length).foldl (fun y i => y + x ^ i * coeff.getD i 0) 0

/-- The conversion `(int)std::round(v)`: `std::round` rounds to the nearest integer, halfway
cases away from zero. -/
def roundToInt (v : ℚ) : Int :=
  if 0 ≤ v then ⌊v + 1 / 2⌋ else ⌈v - 1 / 2⌉

/-- The function `pointAtX(coeff, x)`, line 88:
`cv::Point((int)std::round(x), (int)std::round(y))`. -/
def pointAtX (coeff : List ℚ) (x : ℚ) : Point :=
  ⟨roundToInt x, roundToInt (polyValue coeff x)⟩

/-! ## `runHorizonDetection` (src/horizon_detect_interactive.cpp, lines 94-203) -/

/-- The trackbar-controlled globals, lines 7-13. -/
structure Params where
  g_blurKsize : Int
  g_cannyLower : Int
  g_cannyUpper : Int
  g_houghThresh : Int
  g_minLineLen : Int
  g_maxLineGap : Int
  g_verticalDelta : Int
deriving DecidableEq, Repr

/-- Lines 107-108: `if (g_blurKsize < 1) g_blurKsize = 1;`
`if (g_blurKsize % 2 == 0) g_blurKsize += 1;`. -/
def enforceOddKsize (g_blurKsize : Int) : Int :=
  let k := if g_blurKsize < 1 then 1 else g_blurKsize
  if k % 2 = 0 then k + 1 else k

/-- Lines 137-143: the test `length >= (double)g_minLineLen` with
`length = std::sqrt(dx*dx + dy*dy)`, `dx = x2 - x1`, `dy = y2 - y1`.
The comparison with the square root is decided on the squares; `keepLong_iff_sqrt` shows
that this is the same test. -/
def keepLong (g_minLineLen : Int) (ln : Vec4i) : Bool :=
  let dx := ln.x2 - ln.x1
  let dy := ln.y2 - ln.y1
  decide (g_minLineLen ≤ 0 ∨ g_minLineLen * g_minLineLen ≤ dx * dx + dy * dy)

/-- Line 162: the test `std::abs(x2 - x1) >= g_verticalDelta`. -/
def keepWide (g_verticalDelta : Int) (ln : Vec4i) : Bool :=
  decide (g_verticalDelta ≤ |ln.x2 - ln.x1|)

/-- Lines 133-150: `linesAfterShortRemoval`, built by `push_back` over `linesP`. -/
def linesAfterShortRemoval (g_minLineLen : Int) (linesP : List Vec4i) : List Vec4i :=
  linesP.foldl (fun acc ln => if keepLong g_minLineLen ln then acc ++ [ln] else acc) []

/-- Lines 154-169: `finalLines`, built by `push_back` over `linesAfterShortRemoval`. -/
def finalLines (g_minLineLen g_verticalDelta : Int) (linesP : List Vec4i) : List Vec4i :=
  (linesAfterShortRemoval g_minLineLen linesP).foldl
    (fun acc ln => if keepWide g_verticalDelta ln then acc ++ [ln] else acc) []

/-- Lines 174-179: `horizonPoints`, both endpoints of every line of `finalLines`. -/
def horizonPoints (lines : List Vec4i) : List Point :=
  lines.foldl (fun acc ln => acc ++ [⟨ln.x1, ln.y1⟩, ⟨ln.x2, ln.y2⟩]) []

/-- Lines 196-201: the points passed to `cv::circle`, in drawing order: for every column
`x` of the image, `pointAtX(coeffs, x)` when its `y` lies inside the image. -/
def drawCurve (coeffs : List ℚ) (cols rows : Nat) : List Point :=
  (List.range cols).foldl
    (fun (drawn : List Point) (x : Nat) =>
      let pt := pointAtX coeffs (x : ℚ)
      if 0 ≤ pt.y ∧ pt.y < (rows : Int) then drawn ++ [pt] else drawn) []

/-- What one run of `runHorizonDetection` does after the line filters. -/
inductive Outcome where
  /-- Lines 181-190: the text "Not enough points!" is drawn and the run returns early. -/
  | notEnoughPoints
  /-- The call of `fitPoly` at line 192 executed a division by a zero pivot. -/
  | zeroPivotDivision
  /-- Lines 194-202: the curve was drawn through the listed points. -/
  | curve (drawn : List Point)
deriving DecidableEq, Repr

/-- Lines 181-202: the guard on the number of points, the call `fitPoly(horizonPoints, 2)`
and the drawing loop. -/
def fitAndDraw (pts : List Point) (cols rows : Nat) : Outcome :=
  if pts.length < 4 then Outcome.notEnoughPoints
  else
    match fitPoly pts 2 with
    | none => Outcome.zeroPivotDivision
    | some coeffs => Outcome.curve (drawCurve coeffs cols rows)

/-- One run of `runHorizonDetection` on a loaded image of size `cols x rows` (so that the
early return of line 96 is not taken) for which `cv::HoughLinesP` produced `linesP`.
The result is the parameter state after the run and the outcome of the run. -/
def runHorizonDetection (g : Params) (cols rows : Nat) (linesP : List Vec4i) :
    Params × Outcome :=
  ({ g with g_blurKsize := enforceOddKsize g.g_blurKsize },
   fitAndDraw (horizonPoints (finalLines g.g_minLineLen g.g_verticalDelta linesP)) cols rows)

end HorizonDetect

/-! ## `src/horizon.cpp`, exact-arithmetic reading

The loops of `fitPoly` in src/horizon.cpp are those of src/horizon_detect_interactive.cpp
with other variable names; as there, `double` is taken as `ℚ` here. -/

namespace Horizon

open HorizonDetect (Point Mat Vec)

/-- Lines 30-34 of src/horizon.cpp: `sumVal += std::pow(xValues[i], e)`. -/
def sumPow (points : List Point) (e : Nat) : ℚ :=
  points.foldl (fun sumVal p => sumVal + (p.x : ℚ) ^ e) 0

/-- Lines 38-42 of src/horizon.cpp: `sumVal2 += std::pow(xValues[i], row) * yValues[i]`. -/
def sumPowY (points : List Point) (row : Nat) : ℚ :=
  points.foldl (fun sumVal2 p => sumVal2 + (p.x : ℚ) ^ row * (p.y : ℚ)) 0

/-- Lines 28-43 of src/horizon.cpp: the body of the `row` loop. -/
def fillRow (points : List Point) (n row : Nat) (matrixSystem : Mat) : Mat :=
  ((List.range (n + 1)).foldl
      (fun m col => m.set row col (sumPow points (row + col))) matrixSystem).set
    row (n + 1) (sumPowY points row)

/-- Lines 23-44 of src/horizon.cpp: the augmented matrix `matrixSystem`. -/
def buildMatrix (points : List Point) (n : Nat) : Mat :=
  (List.range (n + 1)).foldl (fun m row => fillRow points n row m) ⟨fun _ _ => 0⟩

/-- Lines 54-58 of src/horizon.cpp: one row operation of the elimination. -/
def elimRow (n i k : Nat) (matrixSystem : Mat) : Option Mat :=
  if matrixSystem.get i i = 0 then none
  else
    let t := matrixSystem.get k i / matrixSystem.get i i
    some ((List.range (n + 2)).foldl
      (fun m j => m.set k j (m.get k j - t * m.get i j)) matrixSystem)

/-- Lines 52-59 of src/horizon.cpp: the loop `for k = i+1 .. n`. -/
def elimCol (n i : Nat) (matrixSystem : Mat) : Option Mat :=
  (List.range' (i + 1) (n - i)).foldlM (fun m k => elimRow n i k m) matrixSystem

/-- Lines 50-60 of src/horizon.cpp: the loop `for i = 0 .. n-1`. -/
def eliminate (n : Nat) (matrixSystem : Mat) : Option Mat :=
  (List.range n).foldlM (fun m i => elimCol n i m) matrixSystem

/-- Lines 65-73 of src/horizon.cpp: the body of the back-substitution loop. -/
def backRow (n i : Nat) (matrixSystem : Mat) (coeffVec : Vec) : Option Vec :=
  let c1 := coeffVec.set i (matrixSystem.get i (n + 1))
  let c2 := (List.range (n + 1)).foldl
    (fun c j => if j ≠ i then c.set i (c.get i - matrixSystem.get i j * c.get j) else c) c1
  if matrixSystem.get i i = 0 then none
  else some (c2.set i (c2.get i / matrixSystem.get i i))

/-- Lines 47 and 63-74 of src/horizon.cpp: the loop `for i = n downto 0`. -/
def backSubst (n : Nat) (matrixSystem : Mat) : Option Vec :=
  (List.range (n + 1)).reverse.foldlM (fun c i => backRow n i matrixSystem c) ⟨fun _ => 0⟩

/-- The function `fitPoly(points, n)` of src/horizon.cpp, lines 9-77, in exact arithmetic
(no operation rounds). -/
def fitPoly (points : List Point) (n : Nat) : Option (List ℚ) :=
  (eliminate n (buildMatrix points n)).bind fun matrixSystem =>
    (backSubst n matrixSystem).map fun coeffVec => (List.range (n + 1)).map coeffVec.get

/-- Lines 84-86 of src/horizon.cpp: `y = 0; for i: y += pow(x, i) * coeff[i]`. -/
def polyValue (coeff : List ℚ) (x : ℚ) : ℚ :=
  (List.range coeff.length).foldl (fun y i => y + x ^ i * coeff.getD i 0) 0

/-- The implicit conversion from `double` to `int` of a function argument: the fractional
part is discarded (truncation toward zero). -/
def truncToInt (v : ℚ) : Int :=
  if 0 ≤ v then ⌊v⌋ else ⌈v⌉

/-- The function `pointAtX(coeff, x)` of src/horizon.cpp, line 87: `cv::Point(x, y)` with
`double` arguments passed to the `int` parameters of the constructor. -/
def pointAtX (coeff : List ℚ) (x : ℚ) : Point :=
  ⟨truncToInt x, truncToInt (polyValue coeff x)⟩

end Horizon

/-! ## Floating-point rounding

The bar heights of `createHistogram` are the integer parts of floating-point results, and
they depend on how each operation is rounded.  For this function every `double` operation is
therefore followed by `Binary64.round`, the IEEE-754 binary64 rounding to nearest with ties
to even.  The exponent range is not modelled: every value arising in `createHistogram` lies
between `2^-63` and `2^63`.  The binary64 reading of `fitPoly` further down uses the same
rounding. -/

namespace Binary64

/-- Rounding of a rational to the nearest integer, halfway cases to the even neighbour. -/
def roundNearestEven (m : ℚ) : Int :=
  if m - ⌊m⌋ < 1 / 2 then ⌊m⌋
  else if 1 / 2 < m - ⌊m⌋ then ⌊m⌋ + 1
  else if ⌊m⌋ % 2 = 0 then ⌊m⌋ else ⌊m⌋ + 1

/-- The `double` nearest to the rational `q` (ties to even): with `e = floor (log2 |q|)`
the 53-bit significand `|q| * 2^(52-e)` is rounded to an integer. -/
def round (q : ℚ) : ℚ :=
  if q = 0 then 0
  else
    let e := Int.log 2 |q|
    let m := roundNearestEven (|q| * (2 : ℚ) ^ (52 - e))
    (if 0 < q then (m : ℚ) else -(m : ℚ)) * (2 : ℚ) ^ (e - 52)

/-- The conversion `static_cast<int>(v)` of a `double`: truncation toward zero. -/
def toInt (v : ℚ) : Int :=
  if 0 ≤ v then ⌊v⌋ else ⌈v⌉

end Binary64

/-! ## `createHistogram` (src/histogram.cpp, lines 9-45) -/

namespace Histogram

/-- A grayscale `cv::Mat` of type `CV_8UC1`: its size and its pixels,
`pixel y x` for `img.at<uchar>(y, x)`. -/
structure GrayImage where
  rows : Nat
  cols : Nat
  pixel : Nat → Nat → Fin 256

/-- The array `long counts[256]`, by index function. -/
structure Counts where
  get : Nat → Nat

/-- The statement `counts[val]++`. -/
def Counts.incr (counts : Counts) (val : Nat) : Counts :=
  ⟨fun i => if i = val then counts.get val + 1 else counts.get i⟩

/-- Line 9: `const int HIST_IMG_HEIGHT = 400`. -/
def HIST_IMG_HEIGHT : Nat := 400

/-- Lines 13-21: the zero-initialised `counts` after the two loops over the pixels. -/
def countPixels (img : GrayImage) : Counts :=
  (List.range img.rows).foldl
    (fun (counts : Counts) (y : Nat) =>
      (List.range img.cols).foldl
        (fun (counts : Counts) (x : Nat) => counts.incr (img.pixel y x).val) counts)
    ⟨fun _ => 0⟩

/-- Lines 24-27: `max_count = 0; for i: if (counts[i] > max_count) max_count = counts[i]`. -/
def findMax (counts : Counts) : Nat :=
  (List.range 256).foldl
    (fun (max_count : Nat) (i : Nat) =>
      if counts.get i > max_count then counts.get i else max_count) 0

/-- Line 33: `height = static_cast<int>((double)counts[i] / max_count * HIST_IMG_HEIGHT)`.
The result is `none` when the divisor `max_count` is zero. -/
def barHeight (counts : Counts) (max_count i : Nat) : Option Int :=
  if max_count = 0 then none
  else
    some (Binary64.toInt (Binary64.round
      (Binary64.round (Binary64.round (counts.get i : ℚ) / Binary64.round (max_count : ℚ)) *
        Binary64.round (HIST_IMG_HEIGHT : ℚ))))

/-- A call `cv::line(hist, Point(x1, y1), Point(x2, y2), Scalar(0), 1)`. -/
structure Line where
  x1 : Int
  y1 : Int
  x2 : Int
  y2 : Int
deriving DecidableEq, Repr

/-- The function `createHistogram(img, hist)`: the lines drawn on the white
`400 x 512` image, in drawing order (lines 32-44), or `none` when a division by zero was
executed. -/
def createHistogram (img : GrayImage) : Option (List Line) :=
  let counts := countPixels img
  let max_count := findMax counts
  (List.range 256).foldlM
    (fun (drawn : List Line) (i : Nat) =>
      (barHeight counts max_count i).map fun height =>
        if height = 0 then drawn
        else
          let x1 : Int := (i : Int) * 2
          let x2 : Int := x1 + 1
          let y1 : Int := (HIST_IMG_HEIGHT : Int) - 1
          let y2 : Int := (HIST_IMG_HEIGHT : Int) - height
          drawn ++ [⟨x1, y1, x1, y2⟩, ⟨x2, y1, x2, y2⟩]) []

end Histogram

/-! ## `createHistogram` (src/threshold_single.cpp, lines 6-54) -/

namespace ThresholdSingle

open Histogram (GrayImage Counts)

/-- Line 8 of src/threshold_single.cpp: `const int HIST_IMG_HEIGHT = 400`. -/
def HIST_IMG_HEIGHT : Nat := 400

/-- Lines 10-19 of src/threshold_single.cpp: `counts` after the loops over the rows `r`
and the columns `c`, with `val = rowPtr[c]`. -/
def countPixels (img : GrayImage) : Counts :=
  (List.range img.rows).foldl
    (fun (counts : Counts) (r : Nat) =>
      (List.range img.cols).foldl
        (fun (counts : Counts) (c : Nat) => counts.incr (img.pixel r c).val) counts)
    ⟨fun _ => 0⟩

/-- Lines 22-28 of src/threshold_single.cpp: the maximum count. -/
def findMax (counts : Counts) : Nat :=
  (List.range 256).foldl
    (fun (maxCount : Nat) (i : Nat) =>
      if counts.get i > maxCount then counts.get i else maxCount) 0

/-- Line 34 of src/threshold_single.cpp:
`scale = static_cast<double>(HIST_IMG_HEIGHT) / (double)maxCount`.
The result is `none` when the divisor `maxCount` is zero. -/
def computeScale (maxCount : Nat) : Option ℚ :=
  if maxCount = 0 then none
  else some (Binary64.round (Binary64.round (HIST_IMG_HEIGHT : ℚ) / Binary64.round (maxCount : ℚ)))

/-- Line 39 of src/threshold_single.cpp: `barHeight = static_cast<int>(counts[i] * scale)`. -/
def barHeight (counts : Counts) (scale : ℚ) (i : Nat) : Int :=
  Binary64.toInt (Binary64.round (Binary64.round (counts.get i : ℚ) * scale))

/-- A call `cv::rectangle(hist, Point(x1, y1), Point(x2, y2), Scalar(0), FILLED)`. -/
structure Rect where
  x1 : Int
  y1 : Int
  x2 : Int
  y2 : Int
deriving DecidableEq, Repr

/-- The function `createHistogram(img, hist)` of src/threshold_single.cpp: the rectangles
drawn on the white `400 x 512` image, in drawing order (lines 37-53), or `none` when the
division by zero at line 34 was executed. -/
def createHistogram (img : GrayImage) : Option (List Rect) :=
  let counts := countPixels img
  let maxCount := findMax counts
  (computeScale maxCount).map fun scale =>
    (List.range 256).foldl
      (fun (drawn : List Rect) (i : Nat) =>
        let barHeight := barHeight counts scale i
        if barHeight > 0 then
          let x1 : Int := (i : Int) * 2
          let x2 : Int := x1 + 1
          let y1 : Int := (HIST_IMG_HEIGHT : Int) - barHeight
          let y2 : Int := (HIST_IMG_HEIGHT : Int) - 1
          drawn ++ [⟨x1, y1, x2, y2⟩]
        else drawn) []

end ThresholdSingle

/-! ## `fitPoly`, `pointAtX` and the pipeline in binary64 arithmetic

The definitions of the namespace `HorizonDetect` above compute with exact rationals.  The
source computes with `double`.  This section gives the same loops of
src/horizon_detect_interactive.cpp with every `double` operation followed by
`Binary64.round`: conversions from `int`, `std::pow` (taken as correctly rounded; on the
inputs evaluated below every power is an integer below `2^53` and so exactly
representable), additions, subtractions, products and quotients, each rounded on its own
(no fused multiply-add).  As for `Binary64.round`, the exponent range is not modelled; on
the inputs evaluated below every non-zero value lies between `2^-63` and `2^63`.

The work arrays `mat` and `coeffVec` are the lists of their entries; every index used by
the source is in range.  As before, `none` means that the C++ code executed a division by
an exactly zero divisor.  The loops of `fitPoly` in src/horizon.cpp are the same, with
other variable names. -/

namespace HorizonDetect.Rounded

/-- The entry `mat[r][c]` of a `std::vector<std::vector<double>>`. -/
def getEntry (mat : List (List ℚ)) (r c : Nat) : ℚ :=
  (mat.getD r []).getD c 0

/-- The assignment `mat[r][c] = v`. -/
def setEntry (mat : List (List ℚ)) (r c : Nat) (v : ℚ) : List (List ℚ) :=
  mat.set r ((mat.getD r []).set c v)

/-- The conversion of an `int` to `double`, lines 34-35 and 198. -/
def ofInt (z : Int) : ℚ :=
  Binary64.round (z : ℚ)

/-- The call `std::pow(x, e)` with a non-negative integer exponent. -/
def pow (x : ℚ) (e : Nat) : ℚ :=
  Binary64.round (x ^ e)

/-- Lines 44-46: `sumVal = 0; for i: sumVal += pow(xVals[i], e)`. -/
def sumPow (points : List Point) (e : Nat) : ℚ :=
  points.foldl (fun sumVal p => Binary64.round (sumVal + pow (ofInt p.x) e)) 0

/-- Lines 50-52: `sumVal2 = 0; for i: sumVal2 += pow(xVals[i], row) * yVals[i]`. -/
def sumPowY (points : List Point) (row : Nat) : ℚ :=
  points.foldl
    (fun sumVal2 p =>
      Binary64.round (sumVal2 + Binary64.round (pow (ofInt p.x) row * ofInt p.y))) 0

/-- Lines 42-53: the body of the `row` loop. -/
def fillRow (points : List Point) (n row : Nat) (mat : List (List ℚ)) : List (List ℚ) :=
  setEntry
    ((List.range (n + 1)).foldl
      (fun m col => setEntry m row col (sumPow points (row + col))) mat)
    row (n + 1) (sumPowY points row)

/-- Lines 39-54: the `(n+1) x (n+2)` augmented matrix, zero-initialised and then filled. -/
def buildMatrix (points : List Point) (n : Nat) : List (List ℚ) :=
  (List.range (n + 1)).foldl (fun m row => fillRow points n row m)
    (List.replicate (n + 1) (List.replicate (n + 2) 0))

/-- Lines 62-64: `t = mat[k][i] / mat[i][i]; for j in 0..n+1: mat[k][j] -= t * mat[i][j]`.
The result is `none` when the divisor `mat[i][i]` is zero. -/
def elimRow (n i k : Nat) (mat : List (List ℚ)) : Option (List (List ℚ)) :=
  if getEntry mat i i = 0 then none
  else
    let t := Binary64.round (getEntry mat k i / getEntry mat i i)
    some ((List.range (n + 2)).foldl
      (fun m j =>
        setEntry m k j
          (Binary64.round (getEntry m k j - Binary64.round (t * getEntry m i j)))) mat)

/-- Lines 60-65: the loop `for k = i+1 .. n`. -/
def elimCol (n i : Nat) (mat : List (List ℚ)) : Option (List (List ℚ)) :=
  (List.range' (i + 1) (n - i)).foldlM (fun m k => elimRow n i k m) mat

/-- Lines 58-66: the loop `for i = 0 .. n-1`. -/
def eliminate (n : Nat) (mat : List (List ℚ)) : Option (List (List ℚ)) :=
  (List.range n).foldlM (fun m i => elimCol n i m) mat

/-- Lines 69-75: the body of the back-substitution loop for row `i`.
The result is `none` when the divisor `mat[i][i]` is zero. -/
def backRow (n i : Nat) (mat : List (List ℚ)) (coeffVec : List ℚ) : Option (List ℚ) :=
  let c1 := coeffVec.set i (getEntry mat i (n + 1))
  let c2 := (List.range (n + 1)).foldl
    (fun c j =>
      if j ≠ i then
        c.set i (Binary64.round (c.getD i 0 - Binary64.round (getEntry mat i j * c.getD j 0)))
      else c) c1
  if getEntry mat i i = 0 then none
  else some (c2.set i (Binary64.round (c2.getD i 0 / getEntry mat i i)))

/-- Lines 57 and 67-76: `coeffVec` zero-initialised, then the loop `for i = n downto 0`. -/
def backSubst (n : Nat) (mat : List (List ℚ)) : Option (List ℚ) :=
  (List.range (n + 1)).reverse.foldlM (fun c i => backRow n i mat c) (List.replicate (n + 1) 0)

/-- The function `fitPoly(points, n)`, lines 27-78, in binary64 arithmetic: the returned
`coeffVec`, or `none` when a division by a zero pivot was executed. -/
def fitPoly (points : List Point) (n : Nat) : Option (List ℚ) :=
  (eliminate n (buildMatrix points n)).bind fun mat => backSubst n mat

/-- Lines 85-87: `y = 0; for i: y += pow(x, i) * coeff[i]`. -/
def polyValue (coeff : List ℚ) (x : ℚ) : ℚ :=
  (List.range coeff.length).foldl
    (fun y i => Binary64.round (y + Binary64.round (pow x i * coeff.getD i 0))) 0

/-- The function `pointAtX(coeff, x)`, lines 83-89, in binary64 arithmetic. -/
def pointAtX (coeff : List ℚ) (x : ℚ) : Point :=
  ⟨roundToInt x, roundToInt (polyValue coeff x)⟩

/-- Lines 196-201: the points passed to `cv::circle`, in drawing order. -/
def drawCurve (coeffs : List ℚ) (cols rows : Nat) : List Point :=
  (List.range cols).foldl
    (fun (drawn : List Point) (x : Nat) =>
      let pt := pointAtX coeffs (ofInt (x : Int))
      if 0 ≤ pt.y ∧ pt.y < (rows : Int) then drawn ++ [pt] else drawn) []

/-- Lines 181-202: the guard on the number of points, the call `fitPoly(horizonPoints, 2)`
and the drawing loop. -/
def fitAndDraw (pts : List Point) (cols rows : Nat) : Outcome :=
  if pts.length < 4 then Outcome.notEnoughPoints
  else
    match fitPoly pts 2 with
    | none => Outcome.zeroPivotDivision
    | some coeffs => Outcome.curve (drawCurve coeffs cols rows)

/-- One run of `runHorizonDetection` (lines 94-203) on a loaded image of size `cols x rows`
for which `cv::HoughLinesP` produced `linesP`, in binary64 arithmetic. -/
def runHorizonDetection (g : Params) (cols rows : Nat) (linesP : List Vec4i) :
    Params × Outcome :=
  ({ g with g_blurKsize := enforceOddKsize g.g_blurKsize },
   fitAndDraw (horizonPoints (finalLines g.g_minLineLen g.g_verticalDelta linesP)) cols rows)

end HorizonDetect.Rounded

/-! ## Evaluation of `Binary64.round`

The exponent in `Binary64.round` is `Int.log`, which is defined by well-founded recursion
and is costly to evaluate.  The function `roundFast` computes the same exponent from the
bit lengths of numerator and denominator; it is proved equal to `round` below and is used
only to evaluate `round` on concrete inputs. -/

namespace Binary64

/-- The number of binary digits of `n`, by halving at most `fuel` times. -/
def bitLen : Nat → Nat → Nat
  | 0, _ => 0
  | fuel + 1, n => if n = 0 then 0 else bitLen fuel (n / 2) + 1

/-- The floor of the binary logarithm of a positive rational: the difference `l` of the bit
lengths of numerator and denominator, or `l - 1`. -/
def log2Floor (q : ℚ) : Int :=
  let l : Int := (bitLen q.num.natAbs q.num.natAbs : Int) - (bitLen q.den q.den : Int)
  if (2 : ℚ) ^ l ≤ q then l else l - 1

/-- The function `round` with the exponent computed by `log2Floor`. -/
def roundFast (q : ℚ) : ℚ :=
  if q = 0 then 0
  else
    let e := log2Floor |q|
    let m := roundNearestEven (|q| * (2 : ℚ) ^ (52 - e))
    (if 0 < q then (m : ℚ) else -(m : ℚ)) * (2 : ℚ) ^ (e - 52)

end Binary64

/-! ## Specification vocabulary -/

namespace HorizonDetect

/-- The x-coordinates occurring in a point list, as a finite set: its cardinality is the
number of pairwise distinct x-coordinates. -/
def distinctXs (points : List Point) : Finset Int :=
  (points.map Point.x).toFinset

/-- The vector `c` solves every row of the augmented `(n+1) x (n+2)` matrix `A`:
`sum_j A[r][j] * c[j] = A[r][n+1]` for every row `r <= n`. -/
def Solves (n : Nat) (A : Mat) (c : Nat → ℚ) : Prop :=
  ∀ r, r ≤ n → ∑ j ∈ Finset.range (n + 1), A.get r j * c j = A.get r (n + 1)

/-- The rows of the leading `m x m` block of `A` are linearly independent. -/
def LeftIndep (m : Nat) (A : Mat) : Prop :=
  ∀ w : Nat → ℚ, (∀ j, j < m → ∑ r ∈ Finset.range m, w r * A.get r j = 0) →
    ∀ r, r < m → w r = 0

/-- Columns `0 .. i-1` of `A` are zero below the diagonal (rows up to `n`). -/
def LowZero (n i : Nat) (A : Mat) : Prop :=
  ∀ r c, c < i → c < r → r ≤ n → A.get r c = 0

/-- The matrix `B` is `A` after the row operation `row k -= t * row i` on columns
`0 .. n+1`. -/
def IsRowOp (n i k : Nat) (t : ℚ) (A B : Mat) : Prop :=
  (∀ c, c ≤ n + 1 → B.get k c = A.get k c - t * A.get i c) ∧
    ∀ r c, r ≠ k → B.get r c = A.get r c

/-- The matrices `A` and `B` have the same solutions and the same independent leading
blocks (they differ by row operations that add a multiple of an earlier row to a later
row). -/
def RowEquiv (n : Nat) (A B : Mat) : Prop :=
  (∀ c, Solves n A c ↔ Solves n B c) ∧
    ∀ m, m ≤ n + 1 → (LeftIndep m A ↔ LeftIndep m B)

/-- The state inside the loop over `k` of elimination step `i`, before row `K`: columns
before `i` are zero below the diagonal, column `i` is zero in rows `i+1 .. K-1`, and the
pivot is not zero. -/
def ColInv (n i K : Nat) (A : Mat) : Prop :=
  LowZero n i A ∧ (∀ r, i < r → r < K → r ≤ n → A.get r i = 0) ∧ A.get i i ≠ 0

/-- The normal equations of the least-squares fit of degree `n` to `points`:
`sum_col M[row][col] * c[col] = b[row]` for `row <= n`, with
`M[row][col] = sum_i x_i^(row+col)` and `b[row] = sum_i x_i^row * y_i`. -/
def NormalEquations (points : List Point) (n : Nat) (c : List ℚ) : Prop :=
  ∀ row, row ≤ n →
    ∑ col ∈ Finset.range (n + 1),
        (points.map fun p => (p.x : ℚ) ^ (row + col)).sum * c.getD col 0 =
      (points.map fun p => (p.x : ℚ) ^ row * (p.y : ℚ)).sum

/-- The value `sum_k c[k] * x^k` of the polynomial with coefficient list `c`. -/
def evalPoly (c : List ℚ) (x : ℚ) : ℚ :=
  ∑ k ∈ Finset.range c.length, c.getD k 0 * x ^ k

/-- The total squared vertical error `sum_i (sum_k c[k] * x_i^k - y_i)^2`. -/
def squaredError (points : List Point) (c : List ℚ) : ℚ :=
  (points.map fun p => (evalPoly c (p.x : ℚ) - (p.y : ℚ)) ^ 2).sum

/-- Horner evaluation `c[0] + x*(c[1] + x*(... + x*c[n]))` of the polynomial with
coefficient list `c`, the alternative the specification allows for `pointAtX`; `0` for the
empty list. -/
def horner (c : List ℚ) (x : ℚ) : ℚ :=
  c.foldr (fun a acc => a + x * acc) 0

/-- The two line filters in the other order: the horizontal-span filter first, then the
length filter on its survivors. -/
def finalLinesSpanFirst (g_minLineLen g_verticalDelta : Int) (linesP : List Vec4i) :
    List Vec4i :=
  (linesP.foldl (fun acc ln => if keepWide g_verticalDelta ln then acc ++ [ln] else acc) []).foldl
    (fun acc ln => if keepLong g_minLineLen ln then acc ++ [ln] else acc) []

/-- The two line filters as one pass that keeps the segments passing both tests. -/
def finalLinesSinglePass (g_minLineLen g_verticalDelta : Int) (linesP : List Vec4i) :
    List Vec4i :=
  linesP.foldl
    (fun acc ln =>
      if keepLong g_minLineLen ln && keepWide g_verticalDelta ln then acc ++ [ln] else acc) []

/-- One row of textbook back-substitution: only the columns `j > i` right of the diagonal
are subtracted, `coeffVec[i] = (mat[i][n+1] - sum_{j>i} mat[i][j]*coeffVec[j]) / mat[i][i]`.
The result is `none` when the divisor `mat[i][i]` is zero. -/
def backRowTextbook (n i : Nat) (mat : Mat) (coeffVec : Vec) : Option Vec :=
  let s := (List.range' (i + 1) (n - i)).foldl
    (fun acc j => acc - mat.get i j * coeffVec.get j) (mat.get i (n + 1))
  if mat.get i i = 0 then none else some (coeffVec.set i (s / mat.get i i))

/-- Textbook back-substitution for the rows `n` down to `0`, from the zero vector. -/
def backSubstTextbook (n : Nat) (mat : Mat) : Option Vec :=
  (List.range (n + 1)).reverse.foldlM (fun c i => backRowTextbook n i mat c) ⟨fun _ => 0⟩

end HorizonDetect

/-! ## Lemmas on the loops of `fitPoly` -/

namespace HorizonDetect

theorem mat_get_set (mat : Mat) (r c : Nat) (v : ℚ) (r' c' : Nat) :
    (mat.set r c v).get r' c' = if r' = r ∧ c' = c then v else mat.get r' c' := rfl

theorem vec_get_set (vec : Vec) (i : Nat) (v : ℚ) (i' : Nat) :
    (vec.set i v).get i' = if i' = i then v else vec.get i' := rfl

theorem foldl_add_eq_sum {α : Type} (f : α → ℚ) (l : List α) (a : ℚ) :
    l.foldl (fun s x => s + f x) a = a + (l.map f).sum := by
  induction l generalizing a with
  | nil => simp
  | cons x xs ih => simp [ih, add_assoc]

theorem sumPow_eq (points : List Point) (e : Nat) :
    sumPow points e = (points.map fun p => (p.x : ℚ) ^ e).sum := by
  unfold sumPow
  rw [foldl_add_eq_sum (fun p : Point => (p.x : ℚ) ^ e)]
  simp

theorem sumPowY_eq (points : List Point) (row : Nat) :
    sumPowY points row = (points.map fun p => (p.x : ℚ) ^ row * (p.y : ℚ)).sum := by
  unfold sumPowY
  rw [foldl_add_eq_sum (fun p : Point => (p.x : ℚ) ^ row * (p.y : ℚ))]
  simp

/-- A loop that assigns `mat[row][col] = f col` for `col < J`. -/
theorem foldl_set_row (f : Nat → ℚ) (row : Nat) (mat : Mat) (J r c : Nat) :
    ((List.range J).foldl (fun m col => m.set row col (f col)) mat).get r c =
      if r = row ∧ c < J then f c else mat.get r c := by
  induction J with
  | zero => simp
  | succ J ih =>
    rw [List.range_succ, List.foldl_append]
    simp only [List.foldl_cons, List.foldl_nil, mat_get_set, ih]
    by_cases h1 : r = row
    · by_cases h2 : c = J
      · simp [h1, h2]
      · by_cases h3 : c < J
        · have : c < J + 1 := by omega
          simp [h1, h2, h3, this]
        · have : ¬ c < J + 1 := by omega
          simp [h1, h2, h3, this]
    · simp [h1]

theorem fillRow_get (points : List Point) (n row : Nat) (mat : Mat) (r c : Nat) :
    (fillRow points n row mat).get r c =
      if r = row ∧ c = n + 1 then sumPowY points row
      else if r = row ∧ c < n + 1 then sumPow points (row + c) else mat.get r c := by
  unfold fillRow
  rw [mat_get_set, foldl_set_row (fun col => sumPow points (row + col))]

theorem buildMatrix_loop_get (points : List Point) (n : Nat) (mat : Mat) (R r c : Nat) :
    ((List.range R).foldl (fun m row => fillRow points n row m) mat).get r c =
      if r < R ∧ c = n + 1 then sumPowY points r
      else if r < R ∧ c < n + 1 then sumPow points (r + c) else mat.get r c := by
  induction R with
  | zero => simp
  | succ R ih =>
    rw [List.range_succ, List.foldl_append]
    simp only [List.foldl_cons, List.foldl_nil, fillRow_get, ih]
    by_cases h1 : r = R
    · subst h1
      by_cases h2 : c = n + 1
      · simp [h2]
      · by_cases h3 : c < n + 1
        · simp [h2, h3]
        · simp [h2, h3]
    · by_cases h4 : r < R
      · have : r < R + 1 := by omega
        simp [h1, h4, this]
      · have : ¬ r < R + 1 := by omega
        simp [h1, h4, this]

theorem buildMatrix_get (points : List Point) (n r c : Nat) (hr : r ≤ n) (hc : c ≤ n) :
    (buildMatrix points n).get r c = (points.map fun p => (p.x : ℚ) ^ (r + c)).sum := by
  unfold buildMatrix
  rw [buildMatrix_loop_get, ← sumPow_eq]
  have h1 : r < n + 1 := by omega
  have h2 : c < n + 1 := by omega
  have h3 : c ≠ n + 1 := by omega
  simp [h1, h2, h3]

theorem buildMatrix_get_rhs (points : List Point) (n r : Nat) (hr : r ≤ n) :
    (buildMatrix points n).get r (n + 1) =
      (points.map fun p => (p.x : ℚ) ^ r * (p.y : ℚ)).sum := by
  unfold buildMatrix
  rw [buildMatrix_loop_get, ← sumPowY_eq]
  have h1 : r < n + 1 := by omega
  simp [h1]

/-- The inner loop of the elimination, lines 63-64: after `J` iterations the first `J`
entries of row `k` are updated and nothing else has changed. -/
theorem elimRow_loop_get (i k : Nat) (hik : i ≠ k) (t : ℚ) (mat : Mat) (J r c : Nat) :
    ((List.range J).foldl (fun m j => m.set k j (m.get k j - t * m.get i j)) mat).get r c =
      if r = k ∧ c < J then mat.get k c - t * mat.get i c else mat.get r c := by
  induction J generalizing r c with
  | zero => simp
  | succ J ih =>
    rw [List.range_succ, List.foldl_append]
    simp only [List.foldl_cons, List.foldl_nil, mat_get_set]
    rw [ih k J, ih i J, ih r c]
    have hJ : ¬ J < J := lt_irrefl J
    by_cases h1 : r = k
    · by_cases h2 : c = J
      · simp [h1, h2, hik]
      · by_cases h3 : c < J
        · have : c < J + 1 := by omega
          simp [h1, h2, h3, this]
        · have : ¬ c < J + 1 := by omega
          simp [h1, h2, h3, this]
    · simp [h1]

theorem elimRow_eq_some (n i k : Nat) (hik : i ≠ k) (A : Mat) (hp : A.get i i ≠ 0) :
    ∃ B, elimRow n i k A = some B ∧ IsRowOp n i k (A.get k i / A.get i i) A B := by
  unfold elimRow
  rw [if_neg hp]
  refine ⟨_, rfl, ?_, ?_⟩
  · intro c hc
    rw [elimRow_loop_get i k hik]
    have : c < n + 2 := by omega
    simp [this]
  · intro r c hr
    rw [elimRow_loop_get i k hik]
    simp [hr]

theorem elimRow_pivot_ne_zero (n i k : Nat) (A B : Mat) (h : elimRow n i k A = some B) :
    A.get i i ≠ 0 := by
  intro h0
  unfold elimRow at h
  rw [if_pos h0] at h
  cases h

/-! ## Row operations preserve solutions and independence -/

theorem RowEquiv.refl (n : Nat) (A : Mat) : RowEquiv n A A :=
  ⟨fun _ => Iff.rfl, fun _ _ => Iff.rfl⟩

theorem RowEquiv.trans {n : Nat} {A B C : Mat} (h1 : RowEquiv n A B) (h2 : RowEquiv n B C) :
    RowEquiv n A C :=
  ⟨fun c => (h1.1 c).trans (h2.1 c), fun m hm => (h1.2 m hm).trans (h2.2 m hm)⟩

theorem IsRowOp.symm {n i k : Nat} {t : ℚ} {A B : Mat} (hik : i ≠ k)
    (h : IsRowOp n i k t A B) : IsRowOp n i k (-t) B A := by
  refine ⟨?_, ?_⟩
  · intro c hc
    rw [h.1 c hc, h.2 i c hik]
    ring
  · intro r c hr
    rw [h.2 r c hr]

theorem IsRowOp.solves {n i k : Nat} {t : ℚ} {A B : Mat} (hik : i ≠ k) (hi : i ≤ n)
    (hk : k ≤ n) (h : IsRowOp n i k t A B) (c : Nat → ℚ) (hA : Solves n A c) :
    Solves n B c := by
  intro r hr
  by_cases hrk : r = k
  · subst hrk
    have e1 : ∑ j ∈ Finset.range (n + 1), B.get r j * c j =
        ∑ j ∈ Finset.range (n + 1), A.get r j * c j -
          t * ∑ j ∈ Finset.range (n + 1), A.get i j * c j := by
      rw [Finset.mul_sum, ← Finset.sum_sub_distrib]
      apply Finset.sum_congr rfl
      intro j hj
      have hj' : j ≤ n + 1 := by
        have := Finset.mem_range.mp hj
        omega
      rw [h.1 j hj']
      ring
    rw [e1, hA r hr, hA i hi, h.1 (n + 1) le_rfl]
  · have e2 : ∑ j ∈ Finset.range (n + 1), B.get r j * c j =
        ∑ j ∈ Finset.range (n + 1), A.get r j * c j := by
      apply Finset.sum_congr rfl
      intro j _
      rw [h.2 r j hrk]
    rw [e2, hA r hr, h.2 r (n + 1) hrk]

theorem IsRowOp.leftIndep {n i k : Nat} {t : ℚ} {A B : Mat} (hik : i < k)
    (h : IsRowOp n i k t A B) (m : Nat) (hm : m ≤ n + 1) (hA : LeftIndep m A) :
    LeftIndep m B := by
  intro w hw
  by_cases hkm : k < m
  · have him : i < m := by omega
    have hne : i ≠ k := by omega
    have key : ∀ j, j < m →
        ∑ r ∈ Finset.range m, (w r - if r = i then t * w k else 0) * A.get r j = 0 := by
      intro j hj
      have hB : ∀ r, B.get r j = A.get r j - if r = k then t * A.get i j else 0 := by
        intro r
        by_cases hrk : r = k
        · subst hrk
          rw [h.1 j (by omega)]
          simp
        · rw [h.2 r j hrk]
          simp [hrk]
      have hw' := hw j hj
      simp only [hB, mul_sub, sub_mul, Finset.sum_sub_distrib, mul_ite, ite_mul, mul_zero,
        zero_mul, Finset.sum_ite_eq', Finset.mem_range, hkm, him, if_true] at hw' ⊢
      linarith
    have h0 := hA _ key
    have hk0 : w k = 0 := by
      have := h0 k hkm
      have hki : k ≠ i := by omega
      simpa [hki] using this
    intro r hr
    have := h0 r hr
    by_cases hri : r = i
    · subst hri
      simpa [hk0] using this
    · simpa [hri] using this
  · apply hA w
    intro j hj
    rw [← hw j hj]
    apply Finset.sum_congr rfl
    intro r hr
    have : r ≠ k := by
      have := Finset.mem_range.mp hr
      omega
    rw [h.2 r j this]

theorem IsRowOp.rowEquiv {n i k : Nat} {t : ℚ} {A B : Mat} (hik : i < k) (hk : k ≤ n)
    (h : IsRowOp n i k t A B) : RowEquiv n A B := by
  have hne : i ≠ k := by omega
  have hi : i ≤ n := by omega
  refine ⟨fun c => ⟨h.solves hne hi hk c, (h.symm hne).solves hne hi hk c⟩, fun m hm => ?_⟩
  exact ⟨h.leftIndep hik m hm, (h.symm hne).leftIndep hik m hm⟩

theorem IsRowOp.colInv {n i k : Nat} {A B : Mat} (hik : i < k) (hk : k ≤ n)
    (h : IsRowOp n i k (A.get k i / A.get i i) A B) (hA : ColInv n i k A) :
    ColInv n i (k + 1) B := by
  obtain ⟨hlow, hcol, hp⟩ := hA
  have hi : i ≤ n := by omega
  refine ⟨?_, ?_, ?_⟩
  · intro r c hci hcr hrn
    by_cases hrk : r = k
    · subst hrk
      rw [h.1 c (by omega), hlow r c hci hcr hrn]
      by_cases hic : c < i
      · rw [hlow i c hci hic hi]
        ring
      · omega
    · rw [h.2 r c hrk]
      exact hlow r c hci hcr hrn
  · intro r hir hrk hrn
    by_cases hrk' : r = k
    · subst hrk'
      rw [h.1 i (by omega)]
      field_simp
    · rw [h.2 r i hrk']
      exact hcol r hir (by omega) hrn
  · rw [h.2 i i (by omega)]
    exact hp

/-- The loop over `k` of one elimination step, started at row `s`. -/
theorem elimCol_loop (n i : Nat) :
    ∀ (len s : Nat) (A : Mat), i < s → s + len = n + 1 → ColInv n i s A →
      ∃ B, (List.range' s len).foldlM (fun m k => elimRow n i k m) A = some B ∧
        ColInv n i (n + 1) B ∧ RowEquiv n A B := by
  intro len
  induction len with
  | zero =>
    intro s A _ hs hA
    have : s = n + 1 := by omega
    subst this
    exact ⟨A, rfl, hA, RowEquiv.refl n A⟩
  | succ len ih =>
    intro s A his hs hA
    have hsn : s ≤ n := by omega
    obtain ⟨A1, hA1, hop⟩ := elimRow_eq_some n i s (by omega) A hA.2.2
    obtain ⟨B, hB, hinv, hequiv⟩ :=
      ih (s + 1) A1 (by omega) (by omega) (hop.colInv his hsn hA)
    refine ⟨B, ?_, hinv, (hop.rowEquiv his hsn).trans hequiv⟩
    rw [List.range'_succ, List.foldlM_cons, hA1]
    exact hB

theorem elimCol_eq_some (n i : Nat) (hi : i ≤ n) (A : Mat) (hlow : LowZero n i A)
    (hp : A.get i i ≠ 0) :
    ∃ B, elimCol n i A = some B ∧ LowZero n (i + 1) B ∧ RowEquiv n A B := by
  have hinv : ColInv n i (i + 1) A := ⟨hlow, fun r h1 h2 _ => by omega, hp⟩
  obtain ⟨B, hB, hB2, hB3⟩ := elimCol_loop n i (n - i) (i + 1) A (by omega) (by omega) hinv
  refine ⟨B, hB, ?_, hB3⟩
  intro r c hc hcr hrn
  by_cases hci : c < i
  · exact hB2.1 r c hci hcr hrn
  · have : c = i := by omega
    subst this
    exact hB2.2.1 r hcr (by omega) hrn

theorem elimCol_pivot_ne_zero (n i : Nat) (hi : i < n) (A B : Mat)
    (h : elimCol n i A = some B) : A.get i i ≠ 0 := by
  intro h0
  unfold elimCol at h
  have : n - i = (n - i - 1) + 1 := by omega
  rw [this, List.range'_succ, List.foldlM_cons] at h
  unfold elimRow at h
  rw [if_pos h0] at h
  cases h

/-! ## Forward elimination -/

theorem pivot_ne_zero (n i : Nat) (hi : i ≤ n) (A : Mat) (hlow : LowZero n i A)
    (hind : LeftIndep (i + 1) A) : A.get i i ≠ 0 := by
  intro h0
  have hw : ∀ j, j < i + 1 →
      ∑ r ∈ Finset.range (i + 1), (if r = i then (1 : ℚ) else 0) * A.get r j = 0 := by
    intro j hj
    have hmem : i ∈ Finset.range (i + 1) := Finset.mem_range.mpr (by omega)
    simp only [ite_mul, one_mul, zero_mul, Finset.sum_ite_eq', hmem, if_true]
    by_cases hji : j < i
    · exact hlow i j hji hji hi
    · have : j = i := by omega
      subst this
      exact h0
  have := hind _ hw i (by omega)
  simp at this

theorem eliminate_prefix_spec (n : Nat) :
    ∀ (I : Nat), I ≤ n → ∀ (A U : Mat),
      (List.range I).foldlM (fun m i => elimCol n i m) A = some U →
        LowZero n I U ∧ RowEquiv n A U := by
  intro I
  induction I with
  | zero =>
    intro _ A U h
    simp only [List.range_zero, List.foldlM_nil] at h
    cases h
    exact ⟨fun r c hc => by omega, RowEquiv.refl n A⟩
  | succ I ih =>
    intro hI A U h
    rw [List.range_succ, List.foldlM_append] at h
    cases hU1 : (List.range I).foldlM (fun m i => elimCol n i m) A with
    | none =>
      rw [hU1] at h
      cases h
    | some U1 =>
      rw [hU1] at h
      simp only [List.foldlM_cons, List.foldlM_nil, Option.bind_eq_bind, Option.some_bind,
        bind_pure] at h
      obtain ⟨hlow, hequiv⟩ := ih (by omega) A U1 hU1
      have hp := elimCol_pivot_ne_zero n I (by omega) U1 U h
      obtain ⟨B, hB, hB2, hB3⟩ := elimCol_eq_some n I (by omega) U1 hlow hp
      rw [hB] at h
      cases h
      exact ⟨hB2, hequiv.trans hB3⟩

theorem eliminate_prefix_some (n : Nat) (A : Mat)
    (hind : ∀ m, m ≤ n + 1 → LeftIndep m A) :
    ∀ (I : Nat), I ≤ n →
      ∃ U, (List.range I).foldlM (fun m i => elimCol n i m) A = some U := by
  intro I
  induction I with
  | zero =>
    intro _
    exact ⟨A, rfl⟩
  | succ I ih =>
    intro hI
    obtain ⟨U1, hU1⟩ := ih (by omega)
    obtain ⟨hlow, hequiv⟩ := eliminate_prefix_spec n I (by omega) A U1 hU1
    have hp : U1.get I I ≠ 0 :=
      pivot_ne_zero n I (by omega) U1 hlow
        ((hequiv.2 (I + 1) (by omega)).1 (hind (I + 1) (by omega)))
    obtain ⟨B, hB, _, _⟩ := elimCol_eq_some n I (by omega) U1 hlow hp
    refine ⟨B, ?_⟩
    rw [List.range_succ, List.foldlM_append, hU1]
    simp only [List.foldlM_cons, List.foldlM_nil, Option.bind_eq_bind, Option.some_bind,
      bind_pure]
    exact hB

theorem eliminate_spec (n : Nat) (A U : Mat) (h : eliminate n A = some U) :
    LowZero n n U ∧ RowEquiv n A U :=
  eliminate_prefix_spec n n le_rfl A U h

theorem eliminate_eq_some (n : Nat) (A : Mat) (hind : ∀ m, m ≤ n + 1 → LeftIndep m A) :
    ∃ U, eliminate n A = some U :=
  eliminate_prefix_some n A hind n le_rfl

/-! ## Back-substitution -/

/-- The inner loop of the back-substitution, lines 70-74. -/
theorem backRow_loop_get (i : Nat) (U : Mat) (c1 : Vec) (J i' : Nat) :
    ((List.range J).foldl
        (fun c j => if j ≠ i then c.set i (c.get i - U.get i j * c.get j) else c) c1).get i' =
      if i' = i then
        c1.get i - ∑ j ∈ Finset.range J, (if j = i then 0 else U.get i j * c1.get j)
      else c1.get i' := by
  induction J generalizing i' with
  | zero =>
    by_cases hi' : i' = i
    · simp [hi']
    · simp [hi']
  | succ J ih =>
    rw [List.range_succ, List.foldl_append, Finset.sum_range_succ]
    simp only [List.foldl_cons, List.foldl_nil]
    by_cases hJ : J = i
    · subst hJ
      simp only [ne_eq, not_true_eq_false, if_false, if_true, add_zero]
      exact ih i'
    · simp only [ne_eq, hJ, not_false_eq_true, if_true, if_false, vec_get_set]
      rw [ih J, ih i, ih i']
      by_cases hi' : i' = i
      · simp only [hi', hJ, if_true, if_false]
        ring
      · simp [hi']

theorem backRow_eq_some (n i : Nat) (U : Mat) (cv : Vec) (hp : U.get i i ≠ 0) :
    ∃ cv', backRow n i U cv = some cv' ∧ (∀ j, j ≠ i → cv'.get j = cv.get j) ∧
      cv'.get i = (U.get i (n + 1) -
        ∑ j ∈ Finset.range (n + 1), (if j = i then 0 else U.get i j * cv.get j)) /
          U.get i i := by
  unfold backRow
  simp only [if_neg hp]
  refine ⟨_, rfl, ?_, ?_⟩
  · intro j hj
    rw [vec_get_set, if_neg hj, backRow_loop_get, if_neg hj, vec_get_set, if_neg hj]
  · rw [vec_get_set, if_pos rfl, backRow_loop_get, if_pos rfl, vec_get_set, if_pos rfl]
    congr 2
    apply Finset.sum_congr rfl
    intro j _
    by_cases hj : j = i
    · simp [hj]
    · simp [hj, vec_get_set]

theorem backRow_pivot_ne_zero (n i : Nat) (U : Mat) (cv cv' : Vec)
    (h : backRow n i U cv = some cv') : U.get i i ≠ 0 := by
  intro h0
  unfold backRow at h
  simp only [if_pos h0] at h
  cases h

theorem range_succ_reverse (K : Nat) :
    (List.range (K + 1)).reverse = K :: (List.range K).reverse := by
  rw [List.range_succ, List.reverse_append]
  rfl

/-- The outer loop of the back-substitution, for the rows `K-1` down to `0`. -/
theorem backSubst_loop (n : Nat) (U : Mat)
    (hup : ∀ r c, c < r → r ≤ n → U.get r c = 0) :
    ∀ (K : Nat), K ≤ n + 1 → (∀ i, i < K → U.get i i ≠ 0) → ∀ cv : Vec,
      (∀ r, K ≤ r → r ≤ n →
        ∑ j ∈ Finset.range (n + 1), U.get r j * cv.get j = U.get r (n + 1)) →
      ∃ c, (List.range K).reverse.foldlM (fun c i => backRow n i U c) cv = some c ∧
        Solves n U c.get := by
  intro K
  induction K with
  | zero =>
    intro _ _ cv hcv
    exact ⟨cv, rfl, fun r hr => hcv r (Nat.zero_le r) hr⟩
  | succ K ih =>
    intro hK hdiag cv hcv
    obtain ⟨cv', h1, h2, h3⟩ := backRow_eq_some n K U cv (hdiag K (by omega))
    have hKmem : K ∈ Finset.range (n + 1) := Finset.mem_range.mpr (by omega)
    have hinv : ∀ r, K ≤ r → r ≤ n →
        ∑ j ∈ Finset.range (n + 1), U.get r j * cv'.get j = U.get r (n + 1) := by
      intro r hKr hrn
      by_cases hrK : r = K
      · subst hrK
        have e : ∀ j, U.get r j * cv'.get j =
            (if j = r then 0 else U.get r j * cv.get j) +
              (if j = r then U.get r r * cv'.get r else 0) := by
          intro j
          by_cases hj : j = r
          · rw [if_pos hj, if_pos hj, hj]
            ring
          · rw [if_neg hj, if_neg hj, h2 j hj]
            ring
        rw [Finset.sum_congr rfl (fun j _ => e j), Finset.sum_add_distrib,
          Finset.sum_ite_eq', if_pos hKmem, h3]
        field_simp [hdiag r (by omega)]
      · rw [← hcv r (by omega) hrn]
        apply Finset.sum_congr rfl
        intro j _
        by_cases hj : j = K
        · subst hj
          rw [hup r j (by omega) hrn]
          simp
        · rw [h2 j hj]
    obtain ⟨c, hc1, hc2⟩ := ih (by omega) (fun i hi => hdiag i (by omega)) cv' hinv
    refine ⟨c, ?_, hc2⟩
    rw [range_succ_reverse, List.foldlM_cons, h1]
    exact hc1

theorem backSubst_loop_pivots (n : Nat) (U : Mat) :
    ∀ (K : Nat) (cv c : Vec),
      (List.range K).reverse.foldlM (fun c i => backRow n i U c) cv = some c →
        ∀ i, i < K → U.get i i ≠ 0 := by
  intro K
  induction K with
  | zero =>
    intro _ _ _ i hi
    omega
  | succ K ih =>
    intro cv c h i hi
    rw [range_succ_reverse, List.foldlM_cons] at h
    cases h1 : backRow n K U cv with
    | none =>
      rw [h1] at h
      cases h
    | some cv' =>
      rw [h1] at h
      by_cases hiK : i = K
      · subst hiK
        exact backRow_pivot_ne_zero n i U cv cv' h1
      · exact ih cv' c h i (by omega)

theorem upper_leftIndep (n : Nat) (U : Mat) (hup : ∀ r c, c < r → r ≤ n → U.get r c = 0)
    (hdiag : ∀ i, i ≤ n → U.get i i ≠ 0) : LeftIndep (n + 1) U := by
  intro w hw r
  induction r using Nat.strong_induction_on with
  | _ r ih =>
    intro hr
    have h := hw r hr
    rw [Finset.sum_eq_single r] at h
    · rcases mul_eq_zero.mp h with h0 | h0
      · exact h0
      · exact absurd h0 (hdiag r (by omega))
    · intro r' hr' hne
      have hr'n := Finset.mem_range.mp hr'
      rcases Nat.lt_or_gt_of_ne hne with hlt | hgt
      · rw [ih r' hlt hr'n]
        ring
      · rw [hup r' r hgt (by omega)]
        ring
    · intro hnot
      exact absurd (Finset.mem_range.mpr hr) hnot

/-! ## The matrix of the normal equations -/

theorem finset_sum_list_sum {α : Type} (s : Finset Nat) (l : List α) (f : Nat → α → ℚ) :
    ∑ r ∈ s, (l.map (f r)).sum = (l.map fun p => ∑ r ∈ s, f r p).sum := by
  induction l with
  | nil => simp
  | cons p ps ih => simp [Finset.sum_add_distrib, ih]

theorem list_sum_map_sub {α : Type} (f g : α → ℚ) (l : List α) :
    (l.map fun p => f p - g p).sum = (l.map f).sum - (l.map g).sum := by
  induction l with
  | nil => simp
  | cons a as ih =>
    simp only [List.map_cons, List.sum_cons, ih]
    ring

theorem list_sum_sq_eq_zero {α : Type} (f : α → ℚ) (l : List α)
    (h : (l.map fun p => f p ^ 2).sum = 0) : ∀ p, p ∈ l → f p = 0 := by
  induction l with
  | nil =>
    intro p hp
    cases hp
  | cons a as ih =>
    have hnn : 0 ≤ (as.map fun p => f p ^ 2).sum := by
      apply List.sum_nonneg
      intro v hv
      obtain ⟨p, _, rfl⟩ := List.mem_map.mp hv
      positivity
    simp only [List.map_cons, List.sum_cons] at h
    have ha : f a ^ 2 = 0 := by nlinarith [sq_nonneg (f a)]
    have has : (as.map fun p => f p ^ 2).sum = 0 := by nlinarith [sq_nonneg (f a)]
    intro p hp
    rcases List.mem_cons.mp hp with rfl | hp'
    · exact pow_eq_zero_iff (two_ne_zero) |>.mp ha
    · exact ih has p hp'

/-- The quadratic form of the moment matrix is a sum of squares. -/
theorem gram_quadratic (points : List Point) (m : Nat) (w : Nat → ℚ) :
    ∑ j ∈ Finset.range m, w j *
        ∑ r ∈ Finset.range m, w r * (points.map fun p => (p.x : ℚ) ^ (r + j)).sum =
      (points.map fun p => (∑ r ∈ Finset.range m, w r * (p.x : ℚ) ^ r) ^ 2).sum := by
  have e1 : ∀ j, w j *
      ∑ r ∈ Finset.range m, w r * (points.map fun p => (p.x : ℚ) ^ (r + j)).sum =
      (points.map fun p => ∑ r ∈ Finset.range m, w j * (w r * (p.x : ℚ) ^ (r + j))).sum := by
    intro j
    rw [← finset_sum_list_sum, Finset.mul_sum]
    apply Finset.sum_congr rfl
    intro r _
    rw [List.sum_map_mul_left, List.sum_map_mul_left]
  simp only [e1]
  rw [finset_sum_list_sum]
  congr 1
  apply List.map_congr_left
  intro p _
  rw [sq, Finset.sum_mul_sum, Finset.sum_comm]
  apply Finset.sum_congr rfl
  intro r _
  apply Finset.sum_congr rfl
  intro j _
  rw [pow_add]
  ring

theorem card_image_cast (s : Finset Int) :
    (s.image (fun a : Int => (a : ℚ))).card = s.card :=
  Finset.card_image_of_injective s Int.cast_injective

theorem mem_image_cast_of_mem (points : List Point) (p : Point) (hp : p ∈ points) :
    (p.x : ℚ) ∈ (distinctXs points).image (fun a : Int => (a : ℚ)) := by
  apply Finset.mem_image_of_mem
  unfold distinctXs
  rw [List.mem_toFinset]
  exact List.mem_map_of_mem _ hp

theorem gram_leftIndep (points : List Point) (n m : Nat) (hmn : m ≤ n + 1)
    (hm : m ≤ (distinctXs points).card) : LeftIndep m (buildMatrix points n) := by
  intro w hw
  have hq : ∑ j ∈ Finset.range m, w j *
      ∑ r ∈ Finset.range m, w r * (points.map fun p => (p.x : ℚ) ^ (r + j)).sum = 0 := by
    apply Finset.sum_eq_zero
    intro j hj
    have hj' := Finset.mem_range.mp hj
    have := hw j hj'
    have e : ∑ r ∈ Finset.range m, w r * (buildMatrix points n).get r j =
        ∑ r ∈ Finset.range m, w r * (points.map fun p => (p.x : ℚ) ^ (r + j)).sum := by
      apply Finset.sum_congr rfl
      intro r hr
      have hr' := Finset.mem_range.mp hr
      rw [buildMatrix_get points n r j (by omega) (by omega)]
    rw [← e, this]
    ring
  rw [gram_quadratic] at hq
  have hroot := list_sum_sq_eq_zero
    (fun p : Point => ∑ r ∈ Finset.range m, w r * (p.x : ℚ) ^ r) points hq
  let P : Polynomial ℚ := ∑ r ∈ Finset.range m, Polynomial.monomial r (w r)
  have hcoeff : ∀ r, r < m → P.coeff r = w r := by
    intro r hr
    simp only [P, Polynomial.finset_sum_coeff, Polynomial.coeff_monomial]
    rw [Finset.sum_ite_eq' (Finset.range m) r w, if_pos (Finset.mem_range.mpr hr)]
  have hP : P = 0 := by
    rcases Nat.eq_zero_or_pos m with h0 | hpos
    · simp [P, h0]
    · apply Polynomial.eq_zero_of_natDegree_lt_card_of_eval_eq_zero' P
        ((distinctXs points).image (fun a : Int => (a : ℚ)))
      · intro x hx
        obtain ⟨a, ha, rfl⟩ := Finset.mem_image.mp hx
        unfold distinctXs at ha
        rw [List.mem_toFinset] at ha
        obtain ⟨p, hp, rfl⟩ := List.mem_map.mp ha
        have := hroot p hp
        simp only [P, Polynomial.eval_finset_sum, Polynomial.eval_monomial]
        exact this
      · rw [card_image_cast]
        have hdeg : P.natDegree ≤ m - 1 := by
          apply Polynomial.natDegree_sum_le_of_forall_le
          intro r hr
          have hr' := Finset.mem_range.mp hr
          exact le_trans (Polynomial.natDegree_monomial_le (w r)) (by omega)
        omega
  intro r hr
  rw [← hcoeff r hr, hP]
  simp

theorem gram_not_leftIndep (points : List Point) (n : Nat)
    (hcard : (distinctXs points).card ≤ n) : ¬ LeftIndep (n + 1) (buildMatrix points n) := by
  intro hind
  let s : Finset ℚ := (distinctXs points).image (fun a : Int => (a : ℚ))
  let P : Polynomial ℚ := ∏ a ∈ s, (Polynomial.X - Polynomial.C a)
  have hmonic : P.Monic :=
    Polynomial.monic_prod_of_monic s _ (fun a _ => Polynomial.monic_X_sub_C a)
  have hdeg : P.natDegree = (distinctXs points).card := by
    have := Polynomial.natDegree_prod_of_monic s (fun a => Polynomial.X - Polynomial.C a)
      (fun a _ => Polynomial.monic_X_sub_C a)
    simp only [Polynomial.natDegree_X_sub_C, Finset.sum_const, smul_eq_mul, mul_one] at this
    rw [← card_image_cast]
    exact this
  have heval : ∀ p, p ∈ points →
      ∑ r ∈ Finset.range (n + 1), P.coeff r * (p.x : ℚ) ^ r = 0 := by
    intro p hp
    rw [← Polynomial.eval_eq_sum_range' (by omega : P.natDegree < n + 1)]
    simp only [P, Polynomial.eval_prod]
    apply Finset.prod_eq_zero (mem_image_cast_of_mem points p hp)
    simp
  have hker : ∀ j, j < n + 1 →
      ∑ r ∈ Finset.range (n + 1), P.coeff r * (buildMatrix points n).get r j = 0 := by
    intro j hj
    have e : ∑ r ∈ Finset.range (n + 1), P.coeff r * (buildMatrix points n).get r j =
        ∑ r ∈ Finset.range (n + 1),
          (points.map fun p => P.coeff r * (p.x : ℚ) ^ (r + j)).sum := by
      apply Finset.sum_congr rfl
      intro r hr
      have hr' := Finset.mem_range.mp hr
      rw [buildMatrix_get points n r j (by omega) (by omega), List.sum_map_mul_left]
    rw [e, finset_sum_list_sum]
    apply List.sum_eq_zero
    intro v hv
    obtain ⟨p, hp, rfl⟩ := List.mem_map.mp hv
    have := heval p hp
    have e2 : ∑ r ∈ Finset.range (n + 1), P.coeff r * (p.x : ℚ) ^ (r + j) =
        (∑ r ∈ Finset.range (n + 1), P.coeff r * (p.x : ℚ) ^ r) * (p.x : ℚ) ^ j := by
      rw [Finset.sum_mul]
      apply Finset.sum_congr rfl
      intro r _
      rw [pow_add]
      ring
    rw [e2, this]
    ring
  have h1 : P.coeff P.natDegree = 0 :=
    hind (fun r => P.coeff r) hker P.natDegree (by omega)
  rw [hmonic.coeff_natDegree] at h1
  exact one_ne_zero h1

/-! ## `fitPoly`: success, failure and the normal equations -/

theorem Solves.congr {n : Nat} {A : Mat} {c d : Nat → ℚ} (h : ∀ j, j ≤ n → c j = d j)
    (hc : Solves n A c) : Solves n A d := by
  intro r hr
  rw [← hc r hr]
  apply Finset.sum_congr rfl
  intro j hj
  have := Finset.mem_range.mp hj
  rw [h j (by omega)]

theorem getD_map_range (f : Nat → ℚ) (n j : Nat) (hj : j ≤ n) :
    ((List.range (n + 1)).map f).getD j 0 = f j := by
  have : j < n + 1 := by omega
  simp [List.getD_eq_getElem?_getD, List.getElem?_map, List.getElem?_range, this]

theorem solves_buildMatrix_iff (points : List Point) (n : Nat) (c : List ℚ) :
    Solves n (buildMatrix points n) (fun j => c.getD j 0) ↔ NormalEquations points n c := by
  unfold Solves NormalEquations
  apply forall_congr'
  intro r
  apply imp_congr_right
  intro hr
  rw [buildMatrix_get_rhs points n r hr]
  have e : ∑ j ∈ Finset.range (n + 1), (buildMatrix points n).get r j * c.getD j 0 =
      ∑ col ∈ Finset.range (n + 1),
        (points.map fun p => (p.x : ℚ) ^ (r + col)).sum * c.getD col 0 := by
    apply Finset.sum_congr rfl
    intro j hj
    have := Finset.mem_range.mp hj
    rw [buildMatrix_get points n r j hr (by omega)]
  rw [e]

theorem LowZero.mono {n i k : Nat} {A : Mat} (hik : i ≤ k) (h : LowZero n k A) :
    LowZero n i A :=
  fun r c hc hcr hrn => h r c (by omega) hcr hrn

theorem fitPoly_eq_some_of_indep (points : List Point) (n : Nat)
    (hind : ∀ m, m ≤ n + 1 → LeftIndep m (buildMatrix points n)) :
    ∃ c, fitPoly points n = some c ∧ c.length = n + 1 ∧ NormalEquations points n c := by
  obtain ⟨U, hU⟩ := eliminate_eq_some n (buildMatrix points n) hind
  obtain ⟨hlow, hequiv⟩ := eliminate_spec n (buildMatrix points n) U hU
  have hup : ∀ r c, c < r → r ≤ n → U.get r c = 0 :=
    fun r c hcr hrn => hlow r c (by omega) hcr hrn
  have hdiag : ∀ i, i < n + 1 → U.get i i ≠ 0 := by
    intro i hi
    exact pivot_ne_zero n i (by omega) U (hlow.mono (by omega))
      ((hequiv.2 (i + 1) (by omega)).1 (hind (i + 1) (by omega)))
  obtain ⟨cv, hcv, hsol⟩ := backSubst_loop n U hup (n + 1) le_rfl hdiag ⟨fun _ => 0⟩
    (fun r h1 h2 => by omega)
  refine ⟨(List.range (n + 1)).map cv.get, ?_, by simp, ?_⟩
  · unfold fitPoly backSubst
    rw [hU, Option.some_bind, hcv, Option.map_some']
  · rw [← solves_buildMatrix_iff]
    apply Solves.congr _ ((hequiv.1 cv.get).2 hsol)
    intro j hj
    rw [getD_map_range cv.get n j hj]

theorem fitPoly_indep_of_some (points : List Point) (n : Nat) (c : List ℚ)
    (h : fitPoly points n = some c) : LeftIndep (n + 1) (buildMatrix points n) := by
  unfold fitPoly at h
  cases hU : eliminate n (buildMatrix points n) with
  | none =>
    rw [hU] at h
    cases h
  | some U =>
    rw [hU, Option.some_bind] at h
    cases hcv : backSubst n U with
    | none =>
      rw [hcv] at h
      cases h
    | some cv =>
      obtain ⟨hlow, hequiv⟩ := eliminate_spec n (buildMatrix points n) U hU
      have hdiag := backSubst_loop_pivots n U (n + 1) ⟨fun _ => 0⟩ cv hcv
      have hup : ∀ r c, c < r → r ≤ n → U.get r c = 0 :=
        fun r c hcr hrn => hlow r c (by omega) hcr hrn
      exact (hequiv.2 (n + 1) le_rfl).2
        (upper_leftIndep n U hup (fun i hi => hdiag i (by omega)))

/-- The solver meets no zero pivot exactly when the points have at least `n+1` pairwise
distinct x-coordinates. -/
theorem fitPoly_isSome_iff (points : List Point) (n : Nat) :
    (∃ c, fitPoly points n = some c) ↔ n + 1 ≤ (distinctXs points).card := by
  constructor
  · rintro ⟨c, hc⟩
    by_contra hlt
    exact gram_not_leftIndep points n (by omega) (fitPoly_indep_of_some points n c hc)
  · intro h
    obtain ⟨c, hc, _⟩ := fitPoly_eq_some_of_indep points n
      (fun m hm => gram_leftIndep points n m hm (by omega))
    exact ⟨c, hc⟩

theorem fitPoly_eq_none_of_few (points : List Point) (n : Nat)
    (h : (distinctXs points).card ≤ n) : fitPoly points n = none := by
  cases hc : fitPoly points n with
  | none => rfl
  | some c =>
    have := (fitPoly_isSome_iff points n).1 ⟨c, hc⟩
    omega

theorem fitPoly_eq_some_of_many (points : List Point) (n : Nat)
    (h : n + 1 ≤ (distinctXs points).card) :
    ∃ c, fitPoly points n = some c ∧ c.length = n + 1 ∧ NormalEquations points n c :=
  fitPoly_eq_some_of_indep points n (fun m hm => gram_leftIndep points n m hm (by omega))

/-- The normal equations have at most one solution of length `n+1` when the points have
at least `n+1` pairwise distinct x-coordinates. -/
theorem normalEquations_unique (points : List Point) (n : Nat)
    (h : n + 1 ≤ (distinctXs points).card) (c d : List ℚ) (hc : c.length = n + 1)
    (hd : d.length = n + 1) (hce : NormalEquations points n c)
    (hde : NormalEquations points n d) : c = d := by
  have hind := gram_leftIndep points n (n + 1) le_rfl h
  have hw : ∀ j, j < n + 1 →
      ∑ r ∈ Finset.range (n + 1),
        (c.getD r 0 - d.getD r 0) * (buildMatrix points n).get r j = 0 := by
    intro j hj
    have e : ∑ r ∈ Finset.range (n + 1),
          (c.getD r 0 - d.getD r 0) * (buildMatrix points n).get r j =
        ∑ r ∈ Finset.range (n + 1),
            (points.map fun p => (p.x : ℚ) ^ (j + r)).sum * c.getD r 0 -
          ∑ r ∈ Finset.range (n + 1),
            (points.map fun p => (p.x : ℚ) ^ (j + r)).sum * d.getD r 0 := by
      rw [← Finset.sum_sub_distrib]
      apply Finset.sum_congr rfl
      intro r hr
      have := Finset.mem_range.mp hr
      rw [buildMatrix_get points n r j (by omega) (by omega), add_comm r j]
      ring
    rw [e, hce j (by omega), hde j (by omega), sub_self]
  have h0 := hind _ hw
  apply List.ext_getElem (by rw [hc, hd])
  intro i h1 h2
  have := h0 i (by omega)
  rw [List.getD_eq_getElem _ _ h1, List.getD_eq_getElem _ _ h2] at this
  linarith

/-- Points that lie exactly on the polynomial with coefficients `c` satisfy the normal
equations with `c`. -/
theorem normalEquations_of_exact (points : List Point) (n : Nat) (c : List ℚ)
    (hc : c.length = n + 1) (hfit : ∀ p, p ∈ points → evalPoly c (p.x : ℚ) = (p.y : ℚ)) :
    NormalEquations points n c := by
  intro row _
  have e1 : ∀ col, (points.map fun p => (p.x : ℚ) ^ (row + col)).sum * c.getD col 0 =
      (points.map fun p => (p.x : ℚ) ^ row * (c.getD col 0 * (p.x : ℚ) ^ col)).sum := by
    intro col
    rw [mul_comm, ← List.sum_map_mul_left]
    congr 1
    apply List.map_congr_left
    intro p _
    rw [pow_add]
    ring
  simp only [e1]
  rw [finset_sum_list_sum]
  congr 1
  apply List.map_congr_left
  intro p hp
  rw [← hfit p hp, ← Finset.mul_sum]
  unfold evalPoly
  rw [hc]

/-! ## Least squares -/

theorem evalPoly_sub (n : Nat) (c d : List ℚ) (hc : c.length = n + 1) (hd : d.length = n + 1)
    (x : ℚ) :
    evalPoly d x = evalPoly c x +
      ∑ k ∈ Finset.range (n + 1), (d.getD k 0 - c.getD k 0) * x ^ k := by
  unfold evalPoly
  rw [hc, hd, ← Finset.sum_add_distrib]
  apply Finset.sum_congr rfl
  intro k _
  ring

/-- The residual of a solution of the normal equations is orthogonal to every polynomial of
degree at most `n`. -/
theorem residual_orthogonal (points : List Point) (n : Nat) (c : List ℚ)
    (hc : c.length = n + 1) (hce : NormalEquations points n c) (e : Nat → ℚ) :
    (points.map fun p => (evalPoly c (p.x : ℚ) - (p.y : ℚ)) *
        ∑ k ∈ Finset.range (n + 1), e k * (p.x : ℚ) ^ k).sum = 0 := by
  have e1 : ∀ p : Point, (evalPoly c (p.x : ℚ) - (p.y : ℚ)) *
        ∑ k ∈ Finset.range (n + 1), e k * (p.x : ℚ) ^ k =
      ∑ k ∈ Finset.range (n + 1), e k *
        (∑ j ∈ Finset.range (n + 1), (p.x : ℚ) ^ (k + j) * c.getD j 0 -
          (p.x : ℚ) ^ k * (p.y : ℚ)) := by
    intro p
    unfold evalPoly
    rw [hc, Finset.mul_sum]
    apply Finset.sum_congr rfl
    intro k _
    have : ∑ j ∈ Finset.range (n + 1), (p.x : ℚ) ^ (k + j) * c.getD j 0 =
        (p.x : ℚ) ^ k * ∑ j ∈ Finset.range (n + 1), c.getD j 0 * (p.x : ℚ) ^ j := by
      rw [Finset.mul_sum]
      apply Finset.sum_congr rfl
      intro j _
      rw [pow_add]
      ring
    rw [this]
    ring
  simp only [e1]
  rw [← finset_sum_list_sum]
  apply Finset.sum_eq_zero
  intro k hk
  have hk' := Finset.mem_range.mp hk
  rw [List.sum_map_mul_left]
  have e2 : (points.map fun p : Point =>
        ∑ j ∈ Finset.range (n + 1), (p.x : ℚ) ^ (k + j) * c.getD j 0 -
          (p.x : ℚ) ^ k * (p.y : ℚ)).sum =
      ∑ j ∈ Finset.range (n + 1),
          (points.map fun p : Point => (p.x : ℚ) ^ (k + j)).sum * c.getD j 0 -
        (points.map fun p : Point => (p.x : ℚ) ^ k * (p.y : ℚ)).sum := by
    rw [list_sum_map_sub, ← finset_sum_list_sum]
    congr 1
    apply Finset.sum_congr rfl
    intro j _
    rw [List.sum_map_mul_right]
  rw [e2, hce k (by omega), sub_self, mul_zero]

theorem squaredError_min (points : List Point) (n : Nat) (c d : List ℚ)
    (hc : c.length = n + 1) (hd : d.length = n + 1) (hce : NormalEquations points n c) :
    squaredError points c ≤ squaredError points d := by
  have hsplit : squaredError points d = squaredError points c +
      (2 * (points.map fun p => (evalPoly c (p.x : ℚ) - (p.y : ℚ)) *
          ∑ k ∈ Finset.range (n + 1), (d.getD k 0 - c.getD k 0) * (p.x : ℚ) ^ k).sum +
        (points.map fun p =>
          (∑ k ∈ Finset.range (n + 1), (d.getD k 0 - c.getD k 0) * (p.x : ℚ) ^ k) ^ 2).sum) := by
    unfold squaredError
    rw [← List.sum_map_mul_left, ← List.sum_map_add, ← List.sum_map_add]
    congr 1
    apply List.map_congr_left
    intro p _
    rw [evalPoly_sub n c d hc hd]
    ring
  rw [hsplit, residual_orthogonal points n c hc hce]
  have hnn : 0 ≤ (points.map fun p =>
      (∑ k ∈ Finset.range (n + 1), (d.getD k 0 - c.getD k 0) * (p.x : ℚ) ^ k) ^ 2).sum := by
    apply List.sum_nonneg
    intro v hv
    obtain ⟨p, _, rfl⟩ := List.mem_map.mp hv
    positivity
  linarith

/-! ## `pointAtX` -/

theorem foldl_range_eq_sum (g : Nat → ℚ) (K : Nat) :
    (List.range K).foldl (fun y i => y + g i) 0 = ∑ i ∈ Finset.range K, g i := by
  induction K with
  | zero => simp
  | succ K ih =>
    rw [List.range_succ, List.foldl_append, Finset.sum_range_succ, ih]
    rfl

theorem polyValue_eq_evalPoly (coeff : List ℚ) (x : ℚ) :
    polyValue coeff x = evalPoly coeff x := by
  unfold polyValue evalPoly
  rw [foldl_range_eq_sum (fun i => x ^ i * coeff.getD i 0)]
  apply Finset.sum_congr rfl
  intro i _
  ring

theorem roundToInt_intCast (z : Int) : roundToInt (z : ℚ) = z := by
  unfold roundToInt
  split
  · rw [Int.floor_eq_iff]
    constructor <;> linarith
  · rw [Int.ceil_eq_iff]
    constructor <;> linarith

theorem roundToInt_abs_sub_le (v : ℚ) : |(roundToInt v : ℚ) - v| ≤ 1 / 2 := by
  unfold roundToInt
  split
  · have h1 := Int.floor_le (v + 1 / 2)
    have h2 := Int.lt_floor_add_one (v + 1 / 2)
    rw [abs_le]
    constructor <;> linarith
  · have h1 := Int.le_ceil (v - 1 / 2)
    have h2 := Int.ceil_lt_add_one (v - 1 / 2)
    rw [abs_le]
    constructor <;> linarith

/-- The result of `roundToInt` is an integer nearest to its argument. -/
theorem roundToInt_nearest (v : ℚ) (z : Int) :
    |(roundToInt v : ℚ) - v| ≤ |(z : ℚ) - v| := by
  have h := roundToInt_abs_sub_le v
  by_cases hz : z = roundToInt v
  · rw [hz]
  · have h1 : (1 : ℚ) ≤ |(z : ℚ) - (roundToInt v : ℚ)| := by
      have : (1 : Int) ≤ |z - roundToInt v| := by
        have : z - roundToInt v ≠ 0 := sub_ne_zero.mpr hz
        exact Int.one_le_abs this
      have h2 : ((1 : Int) : ℚ) ≤ ((|z - roundToInt v| : Int) : ℚ) := Int.cast_le.mpr this
      simpa using h2
    have h3 : |(z : ℚ) - (roundToInt v : ℚ)| ≤ |(z : ℚ) - v| + |(roundToInt v : ℚ) - v| := by
      have := abs_sub_le (z : ℚ) v (roundToInt v : ℚ)
      rw [abs_sub_comm v (roundToInt v : ℚ)] at this
      exact this
    linarith

/-! ## The line filters and the point list -/

theorem foldl_push_eq_filter {α : Type} (p : α → Bool) (l init : List α) :
    l.foldl (fun acc a => if p a then acc ++ [a] else acc) init = init ++ l.filter p := by
  induction l generalizing init with
  | nil => simp
  | cons a as ih =>
    rw [List.foldl_cons, ih]
    by_cases h : p a = true
    · simp [h, List.filter_cons]
    · simp [h, List.filter_cons]

theorem finalLines_eq_filter (g_minLineLen g_verticalDelta : Int) (linesP : List Vec4i) :
    finalLines g_minLineLen g_verticalDelta linesP =
      linesP.filter fun ln => keepLong g_minLineLen ln && keepWide g_verticalDelta ln := by
  unfold finalLines linesAfterShortRemoval
  rw [foldl_push_eq_filter (keepLong g_minLineLen),
    foldl_push_eq_filter (keepWide g_verticalDelta)]
  simp only [List.nil_append, List.filter_filter]
  apply List.filter_congr
  intro ln _
  exact Bool.and_comm _ _

theorem keepLong_iff_sqrt (g_minLineLen : Int) (ln : Vec4i) :
    keepLong g_minLineLen ln = true ↔
      (g_minLineLen : ℝ) ≤
        Real.sqrt (((ln.x2 - ln.x1 : Int) : ℝ) * ((ln.x2 - ln.x1 : Int) : ℝ) +
          ((ln.y2 - ln.y1 : Int) : ℝ) * ((ln.y2 - ln.y1 : Int) : ℝ)) := by
  unfold keepLong
  simp only [decide_eq_true_eq]
  by_cases hL : g_minLineLen ≤ 0
  · constructor
    · intro _
      have h0 : (g_minLineLen : ℝ) ≤ 0 := by exact_mod_cast hL
      exact le_trans h0 (Real.sqrt_nonneg _)
    · intro _
      exact Or.inl hL
  · have hpos : (0 : ℝ) < (g_minLineLen : ℝ) := by
      have : 0 < g_minLineLen := by omega
      exact_mod_cast this
    rw [Real.le_sqrt' hpos]
    constructor
    · rintro (h | h)
      · exact absurd h hL
      · have : ((g_minLineLen * g_minLineLen : Int) : ℝ) ≤
            (((ln.x2 - ln.x1) * (ln.x2 - ln.x1) + (ln.y2 - ln.y1) * (ln.y2 - ln.y1) : Int) : ℝ) :=
          Int.cast_le.mpr h
        push_cast at this ⊢
        nlinarith
    · intro h
      right
      have : ((g_minLineLen * g_minLineLen : Int) : ℝ) ≤
          (((ln.x2 - ln.x1) * (ln.x2 - ln.x1) + (ln.y2 - ln.y1) * (ln.y2 - ln.y1) : Int) : ℝ) := by
        push_cast at h ⊢
        nlinarith
      exact Int.cast_le.mp this

theorem keepLong_mono (t1 t2 : Int) (h : t1 ≤ t2) (ln : Vec4i)
    (h2 : keepLong t2 ln = true) : keepLong t1 ln = true := by
  unfold keepLong at h2 ⊢
  simp only [decide_eq_true_eq] at h2 ⊢
  by_cases h1 : t1 ≤ 0
  · exact Or.inl h1
  · right
    rcases h2 with h2 | h2
    · omega
    · nlinarith

theorem filter_sublist_of_imp {α : Type} (p q : α → Bool) (hpq : ∀ a, p a = true → q a = true)
    (l : List α) : List.Sublist (l.filter p) (l.filter q) := by
  induction l with
  | nil => simp
  | cons a as ih =>
    by_cases hp : p a = true
    · have hq := hpq a hp
      rw [List.filter_cons_of_pos hp, List.filter_cons_of_pos hq]
      exact ih.cons₂ a
    · by_cases hq : q a = true
      · rw [List.filter_cons_of_neg hp, List.filter_cons_of_pos hq]
        exact ih.cons a
      · rw [List.filter_cons_of_neg hp, List.filter_cons_of_neg hq]
        exact ih

theorem horizonPoints_loop_length (lines : List Vec4i) (init : List Point) :
    (lines.foldl (fun acc ln => acc ++ [⟨ln.x1, ln.y1⟩, ⟨ln.x2, ln.y2⟩]) init).length =
      init.length + 2 * lines.length := by
  induction lines generalizing init with
  | nil => simp
  | cons ln lns ih =>
    rw [List.foldl_cons, ih]
    simp only [List.length_append, List.length_cons, List.length_nil]
    omega

theorem horizonPoints_length (lines : List Vec4i) :
    (horizonPoints lines).length = 2 * lines.length := by
  unfold horizonPoints
  rw [horizonPoints_loop_length]
  simp

theorem distinctXs_card_le_length (points : List Point) :
    (distinctXs points).card ≤ points.length := by
  unfold distinctXs
  have := List.toFinset_card_le (points.map Point.x)
  simpa using this

end HorizonDetect

/-! ## Evaluation of `Binary64.round` -/

namespace Binary64

theorem bitLen_zero (fuel : Nat) : bitLen fuel 0 = 0 := by
  cases fuel <;> simp [bitLen]

/-- With enough fuel, `bitLen` is the number of binary digits. -/
theorem bitLen_spec (fuel : Nat) : ∀ n : Nat, n ≤ fuel → n ≠ 0 →
    2 ^ bitLen fuel n ≤ 2 * n ∧ n < 2 ^ bitLen fuel n := by
  induction fuel with
  | zero => intro n h hn; omega
  | succ f ih =>
    intro n h hn
    rw [bitLen, if_neg hn]
    by_cases h2 : n / 2 = 0
    · rw [h2, bitLen_zero]
      have : n = 1 := by omega
      subst this
      constructor <;> norm_num
    · have hle : n / 2 ≤ f := by omega
      obtain ⟨h3, h4⟩ := ih (n / 2) hle h2
      have h5 : 2 * (n / 2) ≤ n := Nat.mul_div_le n 2
      rw [pow_succ]
      constructor
      · omega
      · omega

theorem log_eq_of_bounds (q : ℚ) (e : ℤ) (h1 : (2 : ℚ) ^ e ≤ q) (h2 : q < (2 : ℚ) ^ (e + 1)) :
    Int.log 2 q = e := by
  have hq : 0 < q := lt_of_lt_of_le (zpow_pos (by norm_num) e) h1
  have hb : 1 < (2 : ℕ) := by norm_num
  have h1' : ((2 : ℕ) : ℚ) ^ e ≤ q := by simpa using h1
  have h2' : q < ((2 : ℕ) : ℚ) ^ (e + 1) := by simpa using h2
  have a := (Int.zpow_le_iff_le_log hb hq).1 h1'
  have b := (Int.lt_zpow_iff_log_lt hb hq).1 h2'
  omega

theorem log2Floor_eq (q : ℚ) (hq : 0 < q) : Int.log 2 q = log2Floor q := by
  have hnum : 0 < q.num := Rat.num_pos.2 hq
  have hN : q.num.natAbs ≠ 0 := by
    intro h; rw [Int.natAbs_eq_zero] at h; omega
  have hD : q.den ≠ 0 := q.den_nz
  obtain ⟨a1, a2⟩ := bitLen_spec q.num.natAbs q.num.natAbs le_rfl hN
  obtain ⟨b1, b2⟩ := bitLen_spec q.den q.den le_rfl hD
  have hqe : q = (q.num.natAbs : ℚ) / (q.den : ℚ) := by
    have h := (Rat.num_div_den q).symm
    have h3 : (q.num : ℚ) = ((q.num.natAbs : ℕ) : ℚ) := by
      have : (q.num.natAbs : ℤ) = q.num := Int.natAbs_of_nonneg hnum.le
      rw [← Int.cast_natCast, this]
    rw [h3] at h
    exact h
  set N := q.num.natAbs with hNdef
  set D := q.den with hDdef
  set a := bitLen N N with hadef
  set b := bitLen D D with hbdef
  have hDpos : (0 : ℚ) < (D : ℚ) := by exact_mod_cast Nat.pos_of_ne_zero hD
  have hA : ((2 : ℚ) ^ a) ≤ 2 * (N : ℚ) := by exact_mod_cast a1
  have hA2 : (N : ℚ) < (2 : ℚ) ^ a := by exact_mod_cast a2
  have hB : ((2 : ℚ) ^ b) ≤ 2 * (D : ℚ) := by exact_mod_cast b1
  have hB2 : (D : ℚ) < (2 : ℚ) ^ b := by exact_mod_cast b2
  have hApos : (0 : ℚ) < (2 : ℚ) ^ a := by positivity
  have hBpos : (0 : ℚ) < (2 : ℚ) ^ b := by positivity
  have hl : (2 : ℚ) ^ ((a : ℤ) - (b : ℤ)) = (2 : ℚ) ^ a / (2 : ℚ) ^ b := by
    rw [zpow_sub₀ (by norm_num), zpow_natCast, zpow_natCast]
  have hlow : (2 : ℚ) ^ ((a : ℤ) - (b : ℤ) - 1) ≤ q := by
    rw [zpow_sub₀ (by norm_num), hl, zpow_one, hqe, div_div, div_le_div_iff₀ (by positivity) hDpos]
    nlinarith
  have hhigh : q < (2 : ℚ) ^ ((a : ℤ) - (b : ℤ) + 1) := by
    rw [zpow_add₀ (by norm_num), hl, zpow_one, hqe, div_mul_eq_mul_div,
      div_lt_div_iff₀ hDpos hBpos]
    nlinarith
  unfold log2Floor
  simp only []
  split_ifs with h
  · exact log_eq_of_bounds q _ h hhigh
  · apply log_eq_of_bounds q _ hlow
    rw [sub_add_cancel]
    exact lt_of_not_le h

/-- The function `roundFast` computes `round`. -/
theorem round_eq_roundFast (q : ℚ) : round q = roundFast q := by
  unfold round roundFast
  by_cases h : q = 0
  · simp [h]
  · rw [if_neg h, if_neg h, log2Floor_eq |q| (abs_pos.2 h)]

end Binary64

/-! ## The binary64 reading of `fitPoly` and of the pipeline -/

namespace HorizonDetect

theorem list_foldl_inv {α β : Type} (P : β → Prop) (f : β → α → β)
    (hf : ∀ b a, P b → P (f b a)) : ∀ (l : List α) (b : β), P b → P (l.foldl f b) := by
  intro l
  induction l with
  | nil => intro b hb; exact hb
  | cons a l ih => intro b hb; exact ih (f b a) (hf b a hb)

theorem option_foldlM_inv {α β : Type} (P : β → Prop) (f : β → α → Option β)
    (hf : ∀ b a b', f b a = some b' → P b → P b') :
    ∀ (l : List α) (b r : β), l.foldlM f b = some r → P b → P r := by
  intro l
  induction l with
  | nil =>
    intro b r h hb
    simp only [List.foldlM_nil, Option.pure_def, Option.some.injEq] at h
    exact h ▸ hb
  | cons a l ih =>
    intro b r h hb
    rw [List.foldlM_cons] at h
    cases hfa : f b a with
    | none => rw [hfa] at h; simp at h
    | some b' =>
      rw [hfa] at h
      exact ih b' r h (hf b a b' hfa hb)

/-- One step of the back-substitution keeps the length of `coeffVec`. -/
theorem rounded_backRow_length (n i : Nat) (mat : List (List ℚ)) (c c' : List ℚ)
    (h : Rounded.backRow n i mat c = some c') : c'.length = c.length := by
  unfold Rounded.backRow at h
  simp only [] at h
  split_ifs at h with h0
  simp only [Option.some.injEq] at h
  rw [← h, List.length_set]
  have := list_foldl_inv (fun l : List ℚ => l.length = c.length)
    (fun (cv : List ℚ) (j : Nat) =>
      if j ≠ i then
        cv.set i
          (Binary64.round
            (cv.getD i 0 - Binary64.round (Rounded.getEntry mat i j * cv.getD j 0)))
      else cv)
    (by
      intro b a hb
      show (if a ≠ i then _ else b).length = c.length
      split_ifs
      · rw [List.length_set]; exact hb
      · exact hb)
    (List.range (n + 1)) (c.set i (Rounded.getEntry mat i (n + 1)))
    (List.length_set _ _ _)
  exact this

/-- When `fitPoly` executes no division by zero, it returns `n+1` coefficients. -/
theorem rounded_fitPoly_length (points : List Point) (n : Nat) (c : List ℚ)
    (h : Rounded.fitPoly points n = some c) : c.length = n + 1 := by
  unfold Rounded.fitPoly at h
  cases hm : Rounded.eliminate n (Rounded.buildMatrix points n) with
  | none => rw [hm] at h; simp at h
  | some mat =>
    rw [hm] at h
    simp only [Option.some_bind] at h
    unfold Rounded.backSubst at h
    exact option_foldlM_inv (fun l : List ℚ => l.length = n + 1)
      (fun cv i => Rounded.backRow n i mat cv)
      (fun b a b' hb hlen => (rounded_backRow_length n a mat b b' hb).trans hlen)
      _ _ c h (List.length_replicate _ _)

/-- In binary64 arithmetic, points with only two distinct x-coordinates can pass through
`fitPoly` without any zero divisor: the rounded pivot `mat[2][2]` is about `1.43e-10` here,
and a curve is drawn.  (Thresholds 1 and 0, image of size 40 x 40.) -/
theorem rounded_two_distinct_x_example :
    (distinctXs (horizonPoints (finalLines 1 0
        [⟨15, 21, 15, 0⟩, ⟨14, 12, 15, 6⟩, ⟨15, 3, 14, 36⟩]))).card = 2 ∧
      (Rounded.runHorizonDetection ⟨7, 50, 150, 50, 1, 20, 0⟩ 40 40
        [⟨15, 21, 15, 0⟩, ⟨14, 12, 15, 6⟩, ⟨15, 3, 14, 36⟩]).2 =
        Outcome.curve [⟨13, 39⟩, ⟨14, 24⟩, ⟨15, 8⟩] := by
  have hpts : horizonPoints (finalLines 1 0
      [⟨15, 21, 15, 0⟩, ⟨14, 12, 15, 6⟩, ⟨15, 3, 14, 36⟩]) =
      [⟨15, 21⟩, ⟨15, 0⟩, ⟨14, 12⟩, ⟨15, 6⟩, ⟨15, 3⟩, ⟨14, 36⟩] := by decide
  have hfit : Rounded.fitPoly [⟨15, 21⟩, ⟨15, 0⟩, ⟨14, 12⟩, ⟨15, 6⟩, ⟨15, 3⟩, ⟨14, 36⟩] 2 =
      some [6333186975989761 / 70368744177664, 7077085128725063 / 1125899906842624,
        -7077085128725065 / 9007199254740992] := by
    simp only [Rounded.fitPoly, Rounded.eliminate, Rounded.elimCol, Rounded.elimRow,
      Rounded.buildMatrix, Rounded.fillRow, Rounded.sumPow, Rounded.sumPowY, Rounded.pow,
      Rounded.ofInt, Rounded.backSubst, Rounded.backRow, Binary64.round_eq_roundFast]
    decide!
  have hdraw : Rounded.drawCurve [6333186975989761 / 70368744177664,
      7077085128725063 / 1125899906842624, -7077085128725065 / 9007199254740992] 40 40 =
      [⟨13, 39⟩, ⟨14, 24⟩, ⟨15, 8⟩] := by
    simp only [Rounded.drawCurve, Rounded.pointAtX, Rounded.polyValue, Rounded.pow,
      Rounded.ofInt, Binary64.round_eq_roundFast]
    decide!
  refine ⟨by rw [hpts]; decide, ?_⟩
  unfold Rounded.runHorizonDetection
  dsimp only
  rw [hpts]
  unfold Rounded.fitAndDraw
  rw [if_neg (by decide), hfit]
  exact congrArg Outcome.curve hdraw

end HorizonDetect

/-! ## The two definitions of `fitPoly` -/

theorem Horizon.fitPoly_eq (points : List HorizonDetect.Point) (n : Nat) :
    Horizon.fitPoly points n = HorizonDetect.fitPoly points n := rfl

theorem Horizon.polyValue_eq (coeff : List ℚ) (x : ℚ) :
    Horizon.polyValue coeff x = HorizonDetect.polyValue coeff x := rfl

namespace HorizonDetect

/-! ## The claims -/

/-- Claim C1, counterexample: the two points `(3,0)` and `(3,7)` have the same x-coordinate, and
fitting degree 1 to them executes a division by a zero pivot, in both definitions of
`fitPoly`: no error is reported instead. -/
theorem fitPoly_same_x_example :
    fitPoly [⟨3, 0⟩, ⟨3, 7⟩] 1 = none ∧ Horizon.fitPoly [⟨3, 0⟩, ⟨3, 7⟩] 1 = none := by
  decide!

/-- Claim C1, amended: for every degree `n >= 1` and every point list (empty or not) whose
x-coordinates are all identical, `fitPoly` (both definitions) reports no error: it executes
a division by a pivot that is exactly zero. -/
theorem fitPoly_same_x_zero_pivot (points : List Point) (n : Nat) (hn : 1 ≤ n)
    (hx : ∀ p, p ∈ points → ∀ q, q ∈ points → p.x = q.x) :
    fitPoly points n = none ∧ Horizon.fitPoly points n = none := by
  have hcard : (distinctXs points).card ≤ 1 := by
    rw [Finset.card_le_one]
    intro a ha b hb
    unfold distinctXs at ha hb
    rw [List.mem_toFinset] at ha hb
    obtain ⟨p, hp, rfl⟩ := List.mem_map.mp ha
    obtain ⟨q, hq, rfl⟩ := List.mem_map.mp hb
    exact hx p hp q hq
  have h := fitPoly_eq_none_of_few points n (by omega)
  exact ⟨h, by rw [Horizon.fitPoly_eq, h]⟩

/-- Witness of `fitPoly_same_x_zero_pivot`: three points on the vertical line `x = 5`,
degree 2. -/
theorem fitPoly_same_x_zero_pivot_witness :
    fitPoly [⟨5, 1⟩, ⟨5, 2⟩, ⟨5, 9⟩] 2 = none ∧
      Horizon.fitPoly [⟨5, 1⟩, ⟨5, 2⟩, ⟨5, 9⟩] 2 = none :=
  fitPoly_same_x_zero_pivot [⟨5, 1⟩, ⟨5, 2⟩, ⟨5, 9⟩] 2 (by decide) (by decide)

/-- Claim C2: for `n+1` points with pairwise distinct x-coordinates that lie exactly on the
polynomial with coefficient list `c` (ascending powers, `c[0]` the constant term, degree at
most `n`), `fitPoly` meets no zero pivot and returns exactly `c`. -/
theorem fitPoly_exact (points : List Point) (n : Nat) (c : List ℚ)
    (hlen : points.length = n + 1) (hdistinct : (points.map Point.x).Nodup)
    (hc : c.length = n + 1) (hfit : ∀ p, p ∈ points → evalPoly c (p.x : ℚ) = (p.y : ℚ)) :
    fitPoly points n = some c := by
  have hcard : n + 1 ≤ (distinctXs points).card := by
    unfold distinctXs
    rw [List.toFinset_card_of_nodup hdistinct, List.length_map, hlen]
  obtain ⟨f, hf, hflen, hfe⟩ := fitPoly_eq_some_of_many points n hcard
  rw [hf, normalEquations_unique points n hcard f c hflen hc hfe
    (normalEquations_of_exact points n c hc hfit)]

/-- Witness of `fitPoly_exact`: the points `(0,1)`, `(1,2)`, `(2,5)` of `y = 1 + x^2`. -/
theorem fitPoly_exact_witness : fitPoly [⟨0, 1⟩, ⟨1, 2⟩, ⟨2, 5⟩] 2 = some [1, 0, 1] :=
  fitPoly_exact [⟨0, 1⟩, ⟨1, 2⟩, ⟨2, 5⟩] 2 [1, 0, 1] (by decide) (by decide) (by decide)
    (by
      intro p hp
      simp only [List.mem_cons, List.mem_singleton, List.not_mem_nil, or_false] at hp
      rcases hp with rfl | rfl | rfl <;>
        simp [evalPoly, Finset.sum_range_succ] <;> norm_num)

/-- Claim C3, counterexample: the points `(7402,7)`, `(7403,7)`, `(7404,7)` have three distinct
x-coordinates.  In binary64 arithmetic the sum of the fourth powers is rounded, the
elimination for degree 2 leaves the pivot `mat[2][2]` exactly zero, and the
back-substitution divides by it; in exact arithmetic the same call returns `[7, 0, 0]`. -/
theorem fitPoly_binary64_zero_pivot_example :
    2 + 1 ≤ (distinctXs [⟨7402, 7⟩, ⟨7403, 7⟩, ⟨7404, 7⟩]).card ∧
      Rounded.eliminate 2 (Rounded.buildMatrix [⟨7402, 7⟩, ⟨7403, 7⟩, ⟨7404, 7⟩] 2) =
        some [[3, 22209, 164413229, 21], [0, 2, 29612, 0], [0, 0, 0, 0]] ∧
      Rounded.fitPoly [⟨7402, 7⟩, ⟨7403, 7⟩, ⟨7404, 7⟩] 2 = none ∧
      fitPoly [⟨7402, 7⟩, ⟨7403, 7⟩, ⟨7404, 7⟩] 2 = some [7, 0, 0] := by
  refine ⟨by decide, ?_, ?_, by decide!⟩
  · simp only [Rounded.eliminate, Rounded.elimCol, Rounded.elimRow, Rounded.buildMatrix,
      Rounded.fillRow, Rounded.sumPow, Rounded.sumPowY, Rounded.pow, Rounded.ofInt,
      Binary64.round_eq_roundFast]
    decide!
  · simp only [Rounded.fitPoly, Rounded.eliminate, Rounded.elimCol, Rounded.elimRow,
      Rounded.buildMatrix, Rounded.fillRow, Rounded.sumPow, Rounded.sumPowY, Rounded.pow,
      Rounded.ofInt, Rounded.backSubst, Rounded.backRow, Binary64.round_eq_roundFast]
    decide!

/-- Claim C3, amended: in exact arithmetic (every `double` operation computed without rounding),
when the points contain at least `n+1` pairwise distinct x-coordinates, the elimination
without pivoting never divides by zero (in both definitions of `fitPoly`), the returned
vector has `n+1` entries and solves the normal equations, and it minimises the total
squared vertical error over all coefficient vectors of length `n+1`. -/
theorem fitPoly_least_squares (points : List Point) (n : Nat)
    (hmany : n + 1 ≤ (distinctXs points).card) :
    ∃ c, fitPoly points n = some c ∧ Horizon.fitPoly points n = some c ∧
      c.length = n + 1 ∧ NormalEquations points n c ∧
      ∀ d : List ℚ, d.length = n + 1 → squaredError points c ≤ squaredError points d := by
  obtain ⟨c, hc, hlen, hce⟩ := fitPoly_eq_some_of_many points n hmany
  exact ⟨c, hc, by rw [Horizon.fitPoly_eq, hc], hlen, hce,
    fun d hd => squaredError_min points n c d hlen hd hce⟩

/-- Witness of `fitPoly_least_squares`: four points with three distinct x-coordinates,
degree 1. -/
theorem fitPoly_least_squares_witness :
    ∃ c, fitPoly [⟨0, 0⟩, ⟨1, 2⟩, ⟨1, 0⟩, ⟨2, 3⟩] 1 = some c ∧
      Horizon.fitPoly [⟨0, 0⟩, ⟨1, 2⟩, ⟨1, 0⟩, ⟨2, 3⟩] 1 = some c ∧
      c.length = 1 + 1 ∧ NormalEquations [⟨0, 0⟩, ⟨1, 2⟩, ⟨1, 0⟩, ⟨2, 3⟩] 1 c ∧
      ∀ d : List ℚ, d.length = 1 + 1 →
        squaredError [⟨0, 0⟩, ⟨1, 2⟩, ⟨1, 0⟩, ⟨2, 3⟩] c ≤
          squaredError [⟨0, 0⟩, ⟨1, 2⟩, ⟨1, 0⟩, ⟨2, 3⟩] d :=
  fitPoly_least_squares [⟨0, 0⟩, ⟨1, 2⟩, ⟨1, 0⟩, ⟨2, 3⟩] 1 (by decide)

/-- Claim C4, counterexample: called with fewer than `n+1` points, `fitPoly` reports nothing.  With
the 3 points `(0,1)`, `(1,4)`, `(2,0)` and `n = 3` (exactly `n` points) it runs the
elimination and the back-substitution and, in binary64 arithmetic, returns the coefficients
`[1, 3.5, 1, -1.5]`; with the single point `(0,0)` and `n = 1` the elimination runs to its
end and the back-substitution divides by the zero pivot `mat[1][1]`. -/
theorem fitPoly_too_few_points_example :
    ([⟨0, 1⟩, ⟨1, 4⟩, ⟨2, 0⟩] : List Point).length = 3 ∧
      Rounded.fitPoly [⟨0, 1⟩, ⟨1, 4⟩, ⟨2, 0⟩] 3 = some [1, 7 / 2, 1, -3 / 2] ∧
      (Rounded.eliminate 1 (Rounded.buildMatrix [⟨0, 0⟩] 1)).isSome = true ∧
      Rounded.fitPoly [⟨0, 0⟩] 1 = none := by
  refine ⟨rfl, ?_, ?_, ?_⟩
  · simp only [Rounded.fitPoly, Rounded.eliminate, Rounded.elimCol, Rounded.elimRow,
      Rounded.buildMatrix, Rounded.fillRow, Rounded.sumPow, Rounded.sumPowY, Rounded.pow,
      Rounded.ofInt, Rounded.backSubst, Rounded.backRow, Binary64.round_eq_roundFast]
    decide!
  · simp only [Rounded.eliminate, Rounded.elimCol, Rounded.elimRow, Rounded.buildMatrix,
      Rounded.fillRow, Rounded.sumPow, Rounded.sumPowY, Rounded.pow, Rounded.ofInt,
      Binary64.round_eq_roundFast]
    decide!
  · simp only [Rounded.fitPoly, Rounded.eliminate, Rounded.elimCol, Rounded.elimRow,
      Rounded.buildMatrix, Rounded.fillRow, Rounded.sumPow, Rounded.sumPowY, Rounded.pow,
      Rounded.ofInt, Rounded.backSubst, Rounded.backRow, Binary64.round_eq_roundFast]
    decide!

/-- Claim C4, amended: the insufficient-data check is made by the caller `runHorizonDetection` for
its fixed degree 2, not by `fitPoly`.  A run whose point list (both endpoints of every
accepted line) has fewer than 3 points takes the "Not enough points!" branch, with no
elimination and no division; a run with 3 or more points does not take it.  `fitPoly`
itself has no such check and no such result: for every degree `n` and every point list,
also one with fewer than `n+1` points, it runs the elimination and the back-substitution
and either returns `n+1` coefficients or executes a division by an exactly zero pivot.
(Stated for the binary64 reading; the proof does not depend on the arithmetic.) -/
theorem insufficient_data_guard :
    (∀ (lines : List Vec4i) (cols rows : Nat),
        ((horizonPoints lines).length < 3 →
          Rounded.fitAndDraw (horizonPoints lines) cols rows = Outcome.notEnoughPoints) ∧
        (3 ≤ (horizonPoints lines).length →
          Rounded.fitAndDraw (horizonPoints lines) cols rows ≠ Outcome.notEnoughPoints)) ∧
      ∀ (points : List Point) (n : Nat),
        Rounded.fitPoly points n = none ∨
          ∃ c, Rounded.fitPoly points n = some c ∧ c.length = n + 1 := by
  refine ⟨fun lines cols rows => ⟨?_, ?_⟩, ?_⟩
  · intro h
    unfold Rounded.fitAndDraw
    rw [if_pos (by omega)]
  · intro h
    have hlen := horizonPoints_length lines
    unfold Rounded.fitAndDraw
    rw [if_neg (by omega)]
    cases Rounded.fitPoly (horizonPoints lines) 2 <;> simp
  · intro points n
    cases h : Rounded.fitPoly points n with
    | none => exact Or.inl rfl
    | some c => exact Or.inr ⟨c, rfl, rounded_fitPoly_length points n c h⟩

/-- Witness of `insufficient_data_guard`: one accepted line (2 points) takes the branch, two
accepted lines (4 points) do not. -/
theorem insufficient_data_guard_witness :
    Rounded.fitAndDraw (horizonPoints [⟨0, 0, 10, 1⟩]) 20 20 = Outcome.notEnoughPoints ∧
      Rounded.fitAndDraw (horizonPoints [⟨0, 0, 10, 1⟩, ⟨10, 1, 20, 4⟩]) 20 20 ≠
        Outcome.notEnoughPoints :=
  ⟨(insufficient_data_guard.1 [⟨0, 0, 10, 1⟩] 20 20).1 (by decide),
    (insufficient_data_guard.1 [⟨0, 0, 10, 1⟩, ⟨10, 1, 20, 4⟩] 20 20).2 (by decide)⟩

/-- Claim C5: one run of the pipeline takes its "Not enough points!" branch if and only if the
number of fit points extracted from the accepted segments is less than 3, and otherwise its
outcome is that of the call `fitPoly(horizonPoints, 2)`.  (The source tests `size() < 4`;
the point list has even length, so this is the same test.) -/
theorem run_notEnoughPoints_iff (g : Params) (cols rows : Nat) (linesP : List Vec4i) :
    ((runHorizonDetection g cols rows linesP).2 = Outcome.notEnoughPoints ↔
        (horizonPoints (finalLines g.g_minLineLen g.g_verticalDelta linesP)).length < 3) ∧
      (runHorizonDetection g cols rows linesP).2 =
        if (horizonPoints (finalLines g.g_minLineLen g.g_verticalDelta linesP)).length < 3
        then Outcome.notEnoughPoints
        else
          match fitPoly (horizonPoints (finalLines g.g_minLineLen g.g_verticalDelta linesP)) 2
          with
          | none => Outcome.zeroPivotDivision
          | some coeffs => Outcome.curve (drawCurve coeffs cols rows) := by
  have hlen := horizonPoints_length (finalLines g.g_minLineLen g.g_verticalDelta linesP)
  unfold runHorizonDetection fitAndDraw
  by_cases h : (horizonPoints (finalLines g.g_minLineLen g.g_verticalDelta linesP)).length < 3
  · have h4 : (horizonPoints (finalLines g.g_minLineLen g.g_verticalDelta linesP)).length < 4 := by
      omega
    simp only [if_pos h4, if_pos h]
    exact ⟨⟨fun _ => h, fun _ => trivial⟩, trivial⟩
  · have h4 :
        ¬ (horizonPoints (finalLines g.g_minLineLen g.g_verticalDelta linesP)).length < 4 := by
      omega
    simp only [if_neg h4, if_neg h]
    cases fitPoly (horizonPoints (finalLines g.g_minLineLen g.g_verticalDelta linesP)) 2 <;>
      simp [h]

/-- Claim C6, counterexample: with the default parameters the two segments `(0,0)-(100,0)` and
`(0,5)-(100,5)` are both accepted, their four endpoints pass the guard, and the run, in
binary64 arithmetic, executes a division by the zero pivot `mat[2][2]` inside `fitPoly`
(all sums and quotients of this run are exact). -/
theorem run_two_parallel_segments_example :
    finalLines 30 10 [⟨0, 0, 100, 0⟩, ⟨0, 5, 100, 5⟩] = [⟨0, 0, 100, 0⟩, ⟨0, 5, 100, 5⟩] ∧
      Rounded.eliminate 2 (Rounded.buildMatrix [⟨0, 0⟩, ⟨100, 0⟩, ⟨0, 5⟩, ⟨100, 5⟩] 2) =
        some [[4, 200, 20000, 10], [0, 10000, 1000000, 0], [0, 0, 0, 0]] ∧
      (Rounded.runHorizonDetection ⟨7, 50, 150, 50, 30, 20, 10⟩ 640 480
        [⟨0, 0, 100, 0⟩, ⟨0, 5, 100, 5⟩]).2 = Outcome.zeroPivotDivision := by
  refine ⟨by decide!, ?_, ?_⟩
  · simp only [Rounded.eliminate, Rounded.elimCol, Rounded.elimRow, Rounded.buildMatrix,
      Rounded.fillRow, Rounded.sumPow, Rounded.sumPowY, Rounded.pow, Rounded.ofInt,
      Binary64.round_eq_roundFast]
    decide!
  · have hpts : horizonPoints (finalLines 30 10 [⟨0, 0, 100, 0⟩, ⟨0, 5, 100, 5⟩]) =
        [⟨0, 0⟩, ⟨100, 0⟩, ⟨0, 5⟩, ⟨100, 5⟩] := by decide!
    have hfit : Rounded.fitPoly [⟨0, 0⟩, ⟨100, 0⟩, ⟨0, 5⟩, ⟨100, 5⟩] 2 = none := by
      simp only [Rounded.fitPoly, Rounded.eliminate, Rounded.elimCol, Rounded.elimRow,
        Rounded.buildMatrix, Rounded.fillRow, Rounded.sumPow, Rounded.sumPowY, Rounded.pow,
        Rounded.ofInt, Rounded.backSubst, Rounded.backRow, Binary64.round_eq_roundFast]
      decide!
    unfold Rounded.runHorizonDetection
    dsimp only
    rw [hpts]
    unfold Rounded.fitAndDraw
    rw [if_neg (by decide), hfit]

/-- Claim C6, amended: one run of the pipeline yields exactly one of three outcomes: the "Not
enough points!" branch when the accepted segments supply fewer than 4 points; otherwise
`fitPoly` is called without any pivot check, and the run either executes a division by an
exactly zero pivot or draws the curve of the 3 returned coefficients.  The source has no
`DegenerateSystem` result.  (Stated for the binary64 reading; the proof does not depend
on the arithmetic.) -/
theorem run_outcome_cases (g : Params) (cols rows : Nat) (linesP : List Vec4i) :
    ((horizonPoints (finalLines g.g_minLineLen g.g_verticalDelta linesP)).length < 4 ∧
        (Rounded.runHorizonDetection g cols rows linesP).2 = Outcome.notEnoughPoints) ∨
      (4 ≤ (horizonPoints (finalLines g.g_minLineLen g.g_verticalDelta linesP)).length ∧
        Rounded.fitPoly
          (horizonPoints (finalLines g.g_minLineLen g.g_verticalDelta linesP)) 2 = none ∧
        (Rounded.runHorizonDetection g cols rows linesP).2 = Outcome.zeroPivotDivision) ∨
      (4 ≤ (horizonPoints (finalLines g.g_minLineLen g.g_verticalDelta linesP)).length ∧
        ∃ c, Rounded.fitPoly
            (horizonPoints (finalLines g.g_minLineLen g.g_verticalDelta linesP)) 2 = some c ∧
          c.length = 3 ∧
          (Rounded.runHorizonDetection g cols rows linesP).2 =
            Outcome.curve (Rounded.drawCurve c cols rows)) := by
  unfold Rounded.runHorizonDetection Rounded.fitAndDraw
  by_cases h4 : (horizonPoints (finalLines g.g_minLineLen g.g_verticalDelta linesP)).length < 4
  · left
    exact ⟨h4, by simp only [if_pos h4]⟩
  · right
    cases hfit : Rounded.fitPoly
        (horizonPoints (finalLines g.g_minLineLen g.g_verticalDelta linesP)) 2 with
    | none =>
      left
      exact ⟨by omega, rfl, by simp only [if_neg h4, hfit]⟩
    | some c =>
      right
      exact ⟨by omega, c, rfl, rounded_fitPoly_length _ 2 c hfit, by simp only [if_neg h4, hfit]⟩

/-- Claim C7: the classifier output `finalLines` is exactly the sublist (input order and
multiplicities kept, no segment altered) of the segments that pass both tests, where the
first test holds exactly when the Euclidean length `sqrt(dx*dx + dy*dy)` is at least
`minLength` and the second exactly when the horizontal span `|x2 - x1|` is at least
`minHorizontalSpan`. -/
theorem finalLines_spec (minLength minHorizontalSpan : Int) (segments : List Vec4i) :
    finalLines minLength minHorizontalSpan segments =
        segments.filter (fun ln => keepLong minLength ln && keepWide minHorizontalSpan ln) ∧
      ∀ ln : Vec4i,
        (keepLong minLength ln = true ↔
          (minLength : ℝ) ≤
            Real.sqrt (((ln.x2 - ln.x1 : Int) : ℝ) * ((ln.x2 - ln.x1 : Int) : ℝ) +
              ((ln.y2 - ln.y1 : Int) : ℝ) * ((ln.y2 - ln.y1 : Int) : ℝ))) ∧
        (keepWide minHorizontalSpan ln = true ↔ minHorizontalSpan ≤ |ln.x2 - ln.x1|) := by
  refine ⟨finalLines_eq_filter minLength minHorizontalSpan segments, fun ln => ⟨?_, ?_⟩⟩
  · exact keepLong_iff_sqrt minLength ln
  · unfold keepWide
    simp

/-- Claim C8: raising the length threshold never adds a segment: for `t1 <= t2` the classifier
output for `t2` is a sublist of the output for `t1`, so every segment accepted with `t2` is
accepted with `t1`. -/
theorem finalLines_monotone (S : List Vec4i) (minHorizontalSpan t1 t2 : Int) (h : t1 ≤ t2) :
    List.Sublist (finalLines t2 minHorizontalSpan S) (finalLines t1 minHorizontalSpan S) ∧
      ∀ ln, ln ∈ finalLines t2 minHorizontalSpan S → ln ∈ finalLines t1 minHorizontalSpan S := by
  have hsub : List.Sublist (finalLines t2 minHorizontalSpan S)
      (finalLines t1 minHorizontalSpan S) := by
    rw [finalLines_eq_filter, finalLines_eq_filter]
    apply filter_sublist_of_imp
    intro ln hln
    rw [Bool.and_eq_true] at hln ⊢
    exact ⟨keepLong_mono t1 t2 h ln hln.1, hln.2⟩
  exact ⟨hsub, fun ln hln => hsub.subset hln⟩

/-- Witness of `finalLines_monotone`: thresholds 20 and 101 on the segments of the
end-to-end scenario of the specification. -/
theorem finalLines_monotone_witness :
    (20 : Int) ≤ 101 ∧
      List.Sublist
        (finalLines 101 15
          [⟨0, 100, 100, 98⟩, ⟨100, 98, 200, 90⟩, ⟨200, 90, 300, 50⟩, ⟨10, 10, 12, 90⟩])
        (finalLines 20 15
          [⟨0, 100, 100, 98⟩, ⟨100, 98, 200, 90⟩, ⟨200, 90, 300, 50⟩, ⟨10, 10, 12, 90⟩]) :=
  ⟨by decide,
    (finalLines_monotone
      [⟨0, 100, 100, 98⟩, ⟨100, 98, 200, 90⟩, ⟨200, 90, 300, 50⟩, ⟨10, 10, 12, 90⟩]
      15 20 101 (by decide)).1⟩

/-- Claim C9: the definition of `pointAtX` in src/horizon_detect_interactive.cpp returns, for
every coefficient vector and abscissa, integers nearest to `x` and to the polynomial value;
the definition in src/horizon.cpp does not: at `coeff = [3/4]`, `x = 0` the value is `3/4`,
the interactive definition returns `(0, 1)` and src/horizon.cpp returns `(0, 0)`, so the
two definitions disagree. -/
theorem pointAtX_rounding (coeff : List ℚ) (x : ℚ) (z : Int) :
    (|((pointAtX coeff x).x : ℚ) - x| ≤ |(z : ℚ) - x| ∧
        |((pointAtX coeff x).y : ℚ) - evalPoly coeff x| ≤ |(z : ℚ) - evalPoly coeff x|) ∧
      Horizon.polyValue [3 / 4] 0 = 3 / 4 ∧
      pointAtX [3 / 4] 0 = ⟨0, 1⟩ ∧ Horizon.pointAtX [3 / 4] 0 = ⟨0, 0⟩ := by
  refine ⟨⟨?_, ?_⟩, ?_⟩
  · exact roundToInt_nearest x z
  · unfold pointAtX
    rw [polyValue_eq_evalPoly]
    exact roundToInt_nearest (evalPoly coeff x) z
  · decide!

/-- Claim C10, counterexample: the points `(4163,189)`, `(4164,203)`, `(4166,249)` lie exactly on
`y = 51946103 - 24967 x + 3 x^2` and have three distinct x-coordinates, but in binary64
arithmetic the coefficients fitted with degree 2 evaluate at `x = 4164` to about `203.505`,
so `pointAtX` gives `(4164, 204)` and not the input point `(4164, 203)`. -/
theorem pointAtX_binary64_example :
    (∀ p, p ∈ [(⟨4163, 189⟩ : Point), ⟨4164, 203⟩, ⟨4166, 249⟩] →
        evalPoly [51946103, -24967, 3] (p.x : ℚ) = (p.y : ℚ)) ∧
      2 + 1 ≤ (distinctXs [⟨4163, 189⟩, ⟨4164, 203⟩, ⟨4166, 249⟩]).card ∧
      Rounded.fitPoly [⟨4163, 189⟩, ⟨4164, 203⟩, ⟨4166, 249⟩] 2 =
        some [1514554761907275 / 33554432, -5964054985664971 / 274877906944,
          183480537755641 / 70368744177664] ∧
      Rounded.pointAtX [1514554761907275 / 33554432, -5964054985664971 / 274877906944,
          183480537755641 / 70368744177664] 4164 = ⟨4164, 204⟩ := by
  refine ⟨?_, by decide, ?_, ?_⟩
  · intro p hp
    simp only [List.mem_cons, List.mem_singleton, List.not_mem_nil, or_false] at hp
    rcases hp with rfl | rfl | rfl <;>
      simp [evalPoly, Finset.sum_range_succ] <;> norm_num
  · simp only [Rounded.fitPoly, Rounded.eliminate, Rounded.elimCol, Rounded.elimRow,
      Rounded.buildMatrix, Rounded.fillRow, Rounded.sumPow, Rounded.sumPowY, Rounded.pow,
      Rounded.ofInt, Rounded.backSubst, Rounded.backRow, Binary64.round_eq_roundFast]
    decide!
  · simp only [Rounded.pointAtX, Rounded.polyValue, Rounded.pow, Binary64.round_eq_roundFast]
    decide!

/-- Claim C10, amended: in exact arithmetic (every `double` operation computed without rounding),
when the points (any number of them) lie exactly on one polynomial of degree at most `n`,
with coefficient list `c`, and contain at least `n+1` distinct x-coordinates, `fitPoly`
returns coefficients whose evaluation by `pointAtX` at every input abscissa gives back the
input point. -/
theorem pointAtX_fitPoly (points : List Point) (n : Nat) (c : List ℚ)
    (hc : c.length = n + 1) (hfit : ∀ p, p ∈ points → evalPoly c (p.x : ℚ) = (p.y : ℚ))
    (hmany : n + 1 ≤ (distinctXs points).card) :
    ∃ coeffs, fitPoly points n = some coeffs ∧
      ∀ p, p ∈ points → pointAtX coeffs (p.x : ℚ) = p := by
  obtain ⟨f, hf, hflen, hfe⟩ := fitPoly_eq_some_of_many points n hmany
  have hfc : f = c := normalEquations_unique points n hmany f c hflen hc hfe
    (normalEquations_of_exact points n c hc hfit)
  refine ⟨f, hf, ?_⟩
  intro p hp
  unfold pointAtX
  rw [polyValue_eq_evalPoly, hfc, hfit p hp, roundToInt_intCast, roundToInt_intCast]

/-- Witness of `pointAtX_fitPoly`: five points of `y = 1 + x^2`, one of them repeated,
fitted with degree 2. -/
theorem pointAtX_fitPoly_witness :
    ∃ coeffs, fitPoly [⟨0, 1⟩, ⟨1, 2⟩, ⟨2, 5⟩, ⟨1, 2⟩, ⟨3, 10⟩] 2 = some coeffs ∧
      ∀ p, p ∈ [(⟨0, 1⟩ : Point), ⟨1, 2⟩, ⟨2, 5⟩, ⟨1, 2⟩, ⟨3, 10⟩] →
        pointAtX coeffs (p.x : ℚ) = p :=
  pointAtX_fitPoly [⟨0, 1⟩, ⟨1, 2⟩, ⟨2, 5⟩, ⟨1, 2⟩, ⟨3, 10⟩] 2 [1, 0, 1] (by decide)
    (by
      intro p hp
      simp only [List.mem_cons, List.mem_singleton, List.not_mem_nil, or_false] at hp
      rcases hp with rfl | rfl | rfl | rfl | rfl <;>
        simp [evalPoly, Finset.sum_range_succ] <;> norm_num)
    (by decide)

end HorizonDetect

namespace HorizonDetect

/-! ## Further lemmas -/

theorem foldl_append_eq_flatten {α β : Type} (f : α → List β) (l : List α) (init : List β) :
    l.foldl (fun acc a => acc ++ f a) init = init ++ (l.map f).flatten := by
  induction l generalizing init with
  | nil => simp
  | cons a as ih =>
    rw [List.foldl_cons, ih]
    simp [List.append_assoc]

theorem enforceOddKsize_pos (k : Int) : 0 < enforceOddKsize k := by
  unfold enforceOddKsize
  by_cases h : k < 1
  · simp [h]
  · simp only [if_neg h]
    split <;> omega

theorem enforceOddKsize_odd (k : Int) : enforceOddKsize k % 2 = 1 := by
  unfold enforceOddKsize
  by_cases h : k < 1
  · simp [h]
  · simp only [if_neg h]
    split <;> omega

theorem enforceOddKsize_ge (k : Int) : k ≤ enforceOddKsize k := by
  unfold enforceOddKsize
  by_cases h : k < 1
  · simp only [if_pos h]
    split <;> omega
  · simp only [if_neg h]
    split <;> omega

theorem enforceOddKsize_le (k : Int) : enforceOddKsize k ≤ max k 1 + 1 := by
  unfold enforceOddKsize
  by_cases h : k < 1
  · simp only [if_pos h]
    split <;> omega
  · simp only [if_neg h]
    split <;> omega

theorem enforceOddKsize_idem (k : Int) : enforceOddKsize (enforceOddKsize k) = enforceOddKsize k := by
  have h1 := enforceOddKsize_pos k
  have h2 := enforceOddKsize_odd k
  generalize enforceOddKsize k = e at h1 h2
  unfold enforceOddKsize
  have h3 : ¬ e < 1 := by omega
  simp only [if_neg h3]
  have h4 : ¬ e % 2 = 0 := by omega
  simp only [if_neg h4]

theorem polyValue_cons (a : ℚ) (c : List ℚ) (x : ℚ) :
    polyValue (a :: c) x = a + x * polyValue c x := by
  rw [polyValue_eq_evalPoly, polyValue_eq_evalPoly]
  unfold evalPoly
  rw [List.length_cons, Finset.sum_range_succ', Finset.mul_sum]
  simp only [List.getD_cons_succ, List.getD_cons_zero, pow_zero, mul_one]
  rw [add_comm]
  congr 1
  apply Finset.sum_congr rfl
  intro k _
  rw [pow_succ]
  ring

theorem drawCurve_eq_filter (coeffs : List ℚ) (cols rows : Nat) :
    drawCurve coeffs cols rows =
      ((List.range cols).map fun x : Nat => pointAtX coeffs (x : ℚ)).filter
        fun pt => decide (0 ≤ pt.y ∧ pt.y < (rows : Int)) := by
  unfold drawCurve
  have h : ∀ (l : List Nat) (init : List Point),
      l.foldl (fun (drawn : List Point) (x : Nat) =>
          let pt := pointAtX coeffs (x : ℚ)
          if 0 ≤ pt.y ∧ pt.y < (rows : Int) then drawn ++ [pt] else drawn) init =
        init ++ (l.map fun x : Nat => pointAtX coeffs (x : ℚ)).filter
          fun pt => decide (0 ≤ pt.y ∧ pt.y < (rows : Int)) := by
    intro l
    induction l with
    | nil => simp
    | cons a as ih =>
      intro init
      rw [List.foldl_cons, ih]
      by_cases hp : 0 ≤ (pointAtX coeffs (a : ℚ)).y ∧ (pointAtX coeffs (a : ℚ)).y < (rows : Int)
      · simp [hp, List.filter_cons]
      · simp [hp, List.filter_cons]
  rw [h]
  simp

theorem pointAtX_x_natCast (coeffs : List ℚ) (x : Nat) :
    (pointAtX coeffs (x : ℚ)).x = (x : Int) := by
  unfold pointAtX
  have : ((x : Nat) : ℚ) = (((x : Int)) : ℚ) := by push_cast; rfl
  simp only
  rw [this, roundToInt_intCast]

/-! ## The claims, continued -/

/-- Claim C11: on the end-to-end input of the specification the classifier accepts
exactly the first three segments; the fourth passes the length test and fails the span
test; the accepted segments yield 6 points; `fitPoly` meets no zero pivot and returns the 3
coefficients `1074/11, 59/440, -19/20000`; the unrounded value of the fitted polynomial is
within 3 of 100 at `x = 0` and within 3 of 50 at `x = 300`. -/
theorem end_to_end_scenario :
    finalLines 20 15
        [⟨0, 100, 100, 98⟩, ⟨100, 98, 200, 90⟩, ⟨200, 90, 300, 50⟩, ⟨10, 10, 12, 90⟩] =
      [⟨0, 100, 100, 98⟩, ⟨100, 98, 200, 90⟩, ⟨200, 90, 300, 50⟩] ∧
    keepLong 20 ⟨10, 10, 12, 90⟩ = true ∧ keepWide 15 ⟨10, 10, 12, 90⟩ = false ∧
    horizonPoints [⟨0, 100, 100, 98⟩, ⟨100, 98, 200, 90⟩, ⟨200, 90, 300, 50⟩] =
      [⟨0, 100⟩, ⟨100, 98⟩, ⟨100, 98⟩, ⟨200, 90⟩, ⟨200, 90⟩, ⟨300, 50⟩] ∧
    fitPoly [⟨0, 100⟩, ⟨100, 98⟩, ⟨100, 98⟩, ⟨200, 90⟩, ⟨200, 90⟩, ⟨300, 50⟩] 2 =
      some [1074 / 11, 59 / 440, -19 / 20000] ∧
    |polyValue [1074 / 11, 59 / 440, -19 / 20000] 0 - 100| ≤ 3 ∧
    |polyValue [1074 / 11, 59 / 440, -19 / 20000] 300 - 50| ≤ 3 := by
  decide!

end HorizonDetect

namespace HorizonDetect

/-- Claim C12: the fit-point list consists of both endpoints of every accepted segment, in
segment order with `(x1,y1)` before `(x2,y2)`, nothing removed; its length is twice the
number of accepted segments. -/
theorem horizonPoints_spec (lines : List Vec4i) :
    horizonPoints lines =
        (lines.map fun ln => [(⟨ln.x1, ln.y1⟩ : Point), ⟨ln.x2, ln.y2⟩]).flatten ∧
      (horizonPoints lines).length = 2 * lines.length := by
  refine ⟨?_, horizonPoints_length lines⟩
  unfold horizonPoints
  rw [foldl_append_eq_flatten (fun ln : Vec4i => [(⟨ln.x1, ln.y1⟩ : Point), ⟨ln.x2, ln.y2⟩])]
  simp

/-- Claim C13: the blur-kernel size that a run leaves in the parameter state and passes to
the blur is the coerced knob value; it is positive and odd, not smaller than the knob
value, at most one above `max knob 1` (so no overflow below the maximum `int`), and
coercing it again leaves it unchanged. -/
theorem blurKsize_coerced (g : Params) (cols rows : Nat) (linesP : List Vec4i) :
    (runHorizonDetection g cols rows linesP).1.g_blurKsize = enforceOddKsize g.g_blurKsize ∧
      0 < enforceOddKsize g.g_blurKsize ∧
      enforceOddKsize g.g_blurKsize % 2 = 1 ∧
      g.g_blurKsize ≤ enforceOddKsize g.g_blurKsize ∧
      enforceOddKsize g.g_blurKsize ≤ max g.g_blurKsize 1 + 1 ∧
      enforceOddKsize (enforceOddKsize g.g_blurKsize) = enforceOddKsize g.g_blurKsize :=
  ⟨rfl, enforceOddKsize_pos _, enforceOddKsize_odd _, enforceOddKsize_ge _,
    enforceOddKsize_le _, enforceOddKsize_idem _⟩

/-- Claim C14: running the pipeline again on the same raw segments, from the parameter
state the first run left, gives the same outcome and leaves the parameter state as the
first run left it. -/
theorem run_twice (g : Params) (cols rows : Nat) (linesP : List Vec4i) :
    (runHorizonDetection (runHorizonDetection g cols rows linesP).1 cols rows linesP).2 =
        (runHorizonDetection g cols rows linesP).2 ∧
      (runHorizonDetection (runHorizonDetection g cols rows linesP).1 cols rows linesP).1 =
        (runHorizonDetection g cols rows linesP).1 := by
  unfold runHorizonDetection
  refine ⟨rfl, ?_⟩
  simp only [enforceOddKsize_idem]

/-- Claim C15: the power-sum loop of `pointAtX` (both definitions) computes the same
unrounded value as Horner evaluation, for every coefficient vector and every `x`; both are
`0` for the empty coefficient vector. -/
theorem polyValue_eq_horner (c : List ℚ) (x : ℚ) :
    polyValue c x = horner c x ∧ Horizon.polyValue c x = horner c x ∧
      polyValue [] x = 0 ∧ horner [] x = 0 := by
  have h : polyValue c x = horner c x := by
    induction c with
    | nil => rfl
    | cons a c ih =>
      rw [polyValue_cons, ih]
      rfl
  exact ⟨h, by rw [Horizon.polyValue_eq, h], rfl, rfl⟩

/-- Claim C16, counterexample: on a `10 x 10` image the two accepted segments
`(0,0)-(1,1)` and `(2,4)-(3,9)` give the curve `y = x^2`, and only the 4 points with
`x = 0..3` are plotted; the abscissas `4..9` are skipped. -/
theorem drawCurve_skips_example :
    (runHorizonDetection ⟨7, 50, 150, 50, 1, 20, 1⟩ 10 10 [⟨0, 0, 1, 1⟩, ⟨2, 4, 3, 9⟩]).2 =
      Outcome.curve [⟨0, 0⟩, ⟨1, 1⟩, ⟨2, 4⟩, ⟨3, 9⟩] := by
  decide!

/-- Claim C16, amended: the plotted points of a curve are, in increasing `x` order, the
points `pointAtX(coeffs, x)` for the integers `x` in `[0, W)` whose rounded `y` lies in
`[0, H)`: every abscissa contributes at most one point, and exactly the abscissas whose
point falls outside the image rows are skipped. -/
theorem drawCurve_spec (coeffs : List ℚ) (W H : Nat) :
    drawCurve coeffs W H =
        ((List.range W).map fun x : Nat => pointAtX coeffs (x : ℚ)).filter
          (fun pt => decide (0 ≤ pt.y ∧ pt.y < (H : Int))) ∧
      List.Sublist ((drawCurve coeffs W H).map Point.x)
        ((List.range W).map fun x : Nat => (x : Int)) ∧
      ∀ pt, pt ∈ drawCurve coeffs W H ↔
        ∃ x : Nat, x < W ∧ pt = pointAtX coeffs (x : ℚ) ∧ 0 ≤ pt.y ∧ pt.y < (H : Int) := by
  have h := drawCurve_eq_filter coeffs W H
  refine ⟨h, ?_, ?_⟩
  · rw [h]
    have hx : ((List.range W).map fun x : Nat => (x : Int)) =
        ((List.range W).map fun x : Nat => pointAtX coeffs (x : ℚ)).map Point.x := by
      rw [List.map_map]
      apply List.map_congr_left
      intro x _
      exact (pointAtX_x_natCast coeffs x).symm
    rw [hx]
    exact (List.filter_sublist _).map Point.x
  · intro pt
    rw [h, List.mem_filter, List.mem_map]
    constructor
    · rintro ⟨⟨x, hx, rfl⟩, hy⟩
      exact ⟨x, List.mem_range.mp hx, rfl, of_decide_eq_true hy⟩
    · rintro ⟨x, hx, rfl, hy⟩
      exact ⟨⟨x, List.mem_range.mpr hx, rfl⟩, decide_eq_true hy⟩

/-- Claim C17: the two line filters are independent: the length filter followed by the
span filter (the order of the source) gives the same list as the span filter followed by
the length filter, and as a single pass that keeps the segments passing both tests. -/
theorem filters_commute (g_minLineLen g_verticalDelta : Int) (linesP : List Vec4i) :
    finalLines g_minLineLen g_verticalDelta linesP =
        finalLinesSpanFirst g_minLineLen g_verticalDelta linesP ∧
      finalLines g_minLineLen g_verticalDelta linesP =
        finalLinesSinglePass g_minLineLen g_verticalDelta linesP := by
  rw [finalLines_eq_filter]
  unfold finalLinesSpanFirst finalLinesSinglePass
  rw [foldl_push_eq_filter (keepWide g_verticalDelta),
    foldl_push_eq_filter (keepLong g_minLineLen),
    foldl_push_eq_filter (fun ln => keepLong g_minLineLen ln && keepWide g_verticalDelta ln)]
  simp only [List.nil_append, List.filter_filter, and_self]

/-- Claim C19: the two definitions of `fitPoly` (src/horizon.cpp and
src/horizon_detect_interactive.cpp) are equal: they build the same augmented matrix,
perform the same elimination and the same back-substitution on every matrix, and return the
same coefficient vector or fail on the same zero pivot. -/
theorem fitPoly_definitions_agree (points : List Point) (n : Nat) (mat : Mat) :
    Horizon.buildMatrix points n = buildMatrix points n ∧
      Horizon.eliminate n mat = eliminate n mat ∧
      Horizon.backSubst n mat = backSubst n mat ∧
      Horizon.fitPoly points n = fitPoly points n :=
  ⟨rfl, rfl, rfl, rfl⟩

end HorizonDetect

namespace HorizonDetect

/-! ## Back-substitution against the textbook loop -/

theorem vec_ext (a b : Vec) (h : ∀ i, a.get i = b.get i) : a = b := by
  cases a
  cases b
  congr
  funext i
  exact h i

theorem foldl_sub_eq (f : Nat → ℚ) (l : List Nat) (a : ℚ) :
    l.foldl (fun acc j => acc - f j) a = a - (l.map f).sum := by
  induction l generalizing a with
  | nil => simp
  | cons x xs ih =>
    rw [List.foldl_cons, ih]
    simp only [List.map_cons, List.sum_cons]
    ring

theorem sum_range'_eq (f : Nat → ℚ) (s : Nat) :
    ∀ len : Nat, ((List.range' s len).map f).sum =
      ∑ j ∈ Finset.range (s + len), if s ≤ j then f j else 0 := by
  intro len
  induction len with
  | zero =>
    simp only [List.range'_zero, List.map_nil, List.sum_nil, Nat.add_zero]
    symm
    apply Finset.sum_eq_zero
    intro j hj
    have := Finset.mem_range.mp hj
    rw [if_neg (by omega)]
  | succ len ih =>
    rw [List.range'_concat, List.map_append, List.sum_append, ih, ← Nat.add_assoc,
      Finset.sum_range_succ]
    simp

theorem backRow_unchanged (n i : Nat) (U : Mat) (cv cv' : Vec)
    (h : backRow n i U cv = some cv') : ∀ j, j ≠ i → cv'.get j = cv.get j := by
  obtain ⟨c, hc, hc2, _⟩ := backRow_eq_some n i U cv (backRow_pivot_ne_zero n i U cv cv' h)
  rw [h] at hc
  cases hc
  exact hc2

/-- For a row `i` whose entries of `coeffVec` left of the diagonal are still `0`, the
source loop over all `j != i` and the textbook loop over `j > i` do the same. -/
theorem backRow_eq_textbook (n i : Nat) (hi : i ≤ n) (U : Mat) (cv : Vec)
    (hz : ∀ j, j < i → cv.get j = 0) : backRow n i U cv = backRowTextbook n i U cv := by
  by_cases hp : U.get i i = 0
  · unfold backRow backRowTextbook
    simp only [if_pos hp]
  · obtain ⟨cv', h1, h2, h3⟩ := backRow_eq_some n i U cv hp
    rw [h1]
    unfold backRowTextbook
    simp only [if_neg hp]
    congr 1
    apply vec_ext
    intro k
    rw [vec_get_set]
    by_cases hk : k = i
    · rw [if_pos hk, hk, h3, foldl_sub_eq (fun j => U.get i j * cv.get j),
        sum_range'_eq (fun j => U.get i j * cv.get j) (i + 1) (n - i)]
      have hn : i + 1 + (n - i) = n + 1 := by omega
      rw [hn]
      congr 2
      apply Finset.sum_congr rfl
      intro j _
      by_cases hji : j = i
      · rw [if_pos hji, if_neg (by omega)]
      · rw [if_neg hji]
        by_cases hlt : j < i
        · rw [if_neg (by omega), hz j hlt, mul_zero]
        · rw [if_pos (by omega)]
    · rw [if_neg hk, h2 k hk]

theorem backSubst_loop_eq_textbook (n : Nat) (U : Mat) :
    ∀ (K : Nat), K ≤ n + 1 → ∀ cv : Vec, (∀ j, j < K → cv.get j = 0) →
      (List.range K).reverse.foldlM (fun c i => backRow n i U c) cv =
        (List.range K).reverse.foldlM (fun c i => backRowTextbook n i U c) cv := by
  intro K
  induction K with
  | zero =>
    intro _ cv _
    rfl
  | succ K ih =>
    intro hK cv hz
    rw [range_succ_reverse, List.foldlM_cons, List.foldlM_cons,
      ← backRow_eq_textbook n K (by omega) U cv (fun j hj => hz j (by omega))]
    cases h : backRow n K U cv with
    | none => rfl
    | some cv' =>
      simp only [Option.bind_eq_bind, Option.some_bind]
      apply ih (by omega)
      intro j hj
      rw [backRow_unchanged n K U cv cv' h j (by omega)]
      exact hz j (by omega)

/-- The zero entries of `coeffVec` left of the current row survive the rows processed so
far: after the first `m` rows `n, n-1, ...` every entry `j <= n - m` is still `0`. -/
theorem backSubst_prefix_zero (n : Nat) (U : Mat) :
    ∀ (m : Nat) (cv : Vec),
      ((List.range (n + 1)).reverse.take m).foldlM (fun c i => backRow n i U c)
        ⟨fun _ => 0⟩ = some cv →
      ∀ j, j + m ≤ n → cv.get j = 0 := by
  have hgen : ∀ (l : List Nat) (c0 cv : Vec) (j : Nat), j ∉ l → c0.get j = 0 →
      l.foldlM (fun c i => backRow n i U c) c0 = some cv → cv.get j = 0 := by
    intro l
    induction l with
    | nil =>
      intro c0 cv j _ h0 h
      cases h
      exact h0
    | cons a as ih =>
      intro c0 cv j hj h0 h
      rw [List.foldlM_cons] at h
      cases h1 : backRow n a U c0 with
      | none =>
        rw [h1] at h
        cases h
      | some c1 =>
        rw [h1] at h
        have hja : j ≠ a := fun e => hj (e ▸ List.mem_cons_self _ _)
        apply ih c1 cv j (fun hm => hj (List.mem_cons_of_mem _ hm)) _ h
        rw [backRow_unchanged n a U c0 c1 h1 j hja]
        exact h0
  intro m cv h j hjm
  apply hgen _ _ cv j _ rfl h
  intro hmem
  have hmem' := List.mem_of_mem_take hmem
  rw [List.mem_iff_getElem] at hmem
  obtain ⟨k, hk, hkj⟩ := hmem
  have hk' : k < m := by
    have := List.length_take_le m (List.range (n + 1)).reverse
    omega
  have hlen : k < (List.range (n + 1)).reverse.length := by
    rw [List.length_take] at hk
    omega
  rw [List.getElem_take, List.getElem_reverse] at hkj
  simp only [List.length_range, List.getElem_range] at hkj
  simp only [List.length_reverse, List.length_range] at hlen
  omega

/-- The outer loop of the back-substitution on an arbitrary matrix with non-zero diagonal:
the result solves the upper-triangular part of the system. -/
theorem backSubst_loop_upper (n : Nat) (U : Mat) :
    ∀ (K : Nat), K ≤ n + 1 → (∀ i, i < K → U.get i i ≠ 0) → ∀ cv : Vec,
      (∀ j, j < K → cv.get j = 0) →
      (∀ r, K ≤ r → r ≤ n →
        ∑ j ∈ Finset.range (n + 1), (if r ≤ j then U.get r j * cv.get j else 0) =
          U.get r (n + 1)) →
      ∃ c, (List.range K).reverse.foldlM (fun c i => backRow n i U c) cv = some c ∧
        ∀ r, r ≤ n →
          ∑ j ∈ Finset.range (n + 1), (if r ≤ j then U.get r j * c.get j else 0) =
            U.get r (n + 1) := by
  intro K
  induction K with
  | zero =>
    intro _ _ cv _ hcv
    exact ⟨cv, rfl, fun r hr => hcv r (Nat.zero_le r) hr⟩
  | succ K ih =>
    intro hK hdiag cv hz hcv
    obtain ⟨cv', h1, h2, h3⟩ := backRow_eq_some n K U cv (hdiag K (by omega))
    have hKmem : K ∈ Finset.range (n + 1) := Finset.mem_range.mpr (by omega)
    have hinv : ∀ r, K ≤ r → r ≤ n →
        ∑ j ∈ Finset.range (n + 1), (if r ≤ j then U.get r j * cv'.get j else 0) =
          U.get r (n + 1) := by
      intro r hKr hrn
      by_cases hrK : r = K
      · subst hrK
        have e : ∀ j, (if r ≤ j then U.get r j * cv'.get j else 0) =
            (if j = r then 0 else U.get r j * cv.get j) +
              (if j = r then U.get r r * cv'.get r else 0) := by
          intro j
          by_cases hj : j = r
          · rw [if_pos hj, if_pos hj, if_pos (by omega), hj]
            ring
          · rw [if_neg hj, if_neg hj, h2 j hj]
            by_cases hlt : j < r
            · rw [if_neg (by omega), hz j (by omega)]
              ring
            · rw [if_pos (by omega)]
              ring
        rw [Finset.sum_congr rfl (fun j _ => e j), Finset.sum_add_distrib,
          Finset.sum_ite_eq', if_pos hKmem, h3]
        field_simp [hdiag r (by omega)]
      · rw [← hcv r (by omega) hrn]
        apply Finset.sum_congr rfl
        intro j _
        by_cases hj : j = K
        · subst hj
          rw [if_neg (by omega), if_neg (by omega)]
        · rw [h2 j hj]
    obtain ⟨c, hc1, hc2⟩ := ih (by omega) (fun i hi => hdiag i (by omega)) cv'
      (fun j hj => by rw [h2 j (by omega)]; exact hz j (by omega)) hinv
    refine ⟨c, ?_, hc2⟩
    rw [range_succ_reverse, List.foldlM_cons, h1]
    exact hc1

/-- Claim C18: in the back-substitution of `fitPoly` (both definitions) the terms left of
the diagonal contribute zero, because the entries of `coeffVec` below the current row are
still `0` when the row is processed; so on every augmented matrix the loop is the textbook
back-substitution over `j > i`, and when the diagonal is non-zero it returns the solution
of the upper-triangular part of the system. -/
theorem backSubst_eq_textbook (n : Nat) (mat : Mat) (hdiag : ∀ i, i ≤ n → mat.get i i ≠ 0) :
    backSubst n mat = backSubstTextbook n mat ∧
      Horizon.backSubst n mat = backSubstTextbook n mat ∧
      (∃ c, backSubst n mat = some c ∧
        ∀ i, i ≤ n →
          ∑ j ∈ (Finset.range (n + 1)).filter (fun j => i ≤ j), mat.get i j * c.get j =
            mat.get i (n + 1)) ∧
      ∀ (m : Nat) (cv : Vec),
        ((List.range (n + 1)).reverse.take m).foldlM (fun c i => backRow n i mat c)
          ⟨fun _ => 0⟩ = some cv →
        ∀ j, j + m ≤ n → cv.get j = 0 := by
  have heq : backSubst n mat = backSubstTextbook n mat :=
    backSubst_loop_eq_textbook n mat (n + 1) le_rfl ⟨fun _ => 0⟩ (fun _ _ => rfl)
  refine ⟨heq, heq, ?_, backSubst_prefix_zero n mat⟩
  obtain ⟨c, hc, hsol⟩ := backSubst_loop_upper n mat (n + 1) le_rfl
    (fun i hi => hdiag i (by omega)) ⟨fun _ => 0⟩ (fun _ _ => rfl) (fun r h1 h2 => by omega)
  refine ⟨c, hc, ?_⟩
  intro i hi
  rw [Finset.sum_filter]
  exact hsol i hi

/-- Witness of `backSubst_eq_textbook`: the `2 x 3` augmented matrix with rows `(2, 1 | 5)`
and `(7, 3 | 6)`, whose entry `7` left of the diagonal is ignored by both loops. -/
theorem backSubst_eq_textbook_witness :
    backSubst 1 ⟨fun r c => if r = 0 then (if c = 0 then 2 else if c = 1 then 1 else 5)
        else (if c = 0 then 7 else if c = 1 then 3 else 6)⟩ =
      backSubstTextbook 1 ⟨fun r c => if r = 0 then (if c = 0 then 2 else if c = 1 then 1 else 5)
        else (if c = 0 then 7 else if c = 1 then 3 else 6)⟩ :=
  (backSubst_eq_textbook 1
    ⟨fun r c => if r = 0 then (if c = 0 then 2 else if c = 1 then 1 else 5)
      else (if c = 0 then 7 else if c = 1 then 3 else 6)⟩
    (by
      intro i hi
      have : i = 0 ∨ i = 1 := by omega
      rcases this with rfl | rfl <;> norm_num)).1

end HorizonDetect

/-! ## Lemmas on the rounding to `double` -/

namespace Binary64

theorem roundNearestEven_cases (m : ℚ) :
    roundNearestEven m = ⌊m⌋ ∨ roundNearestEven m = ⌊m⌋ + 1 := by
  unfold roundNearestEven
  split_ifs <;> simp

theorem roundNearestEven_intCast (z : Int) : roundNearestEven (z : ℚ) = z := by
  unfold roundNearestEven
  simp

theorem floor_le_roundNearestEven (m : ℚ) : ⌊m⌋ ≤ roundNearestEven m := by
  rcases roundNearestEven_cases m with h | h <;> omega

theorem roundNearestEven_mono {x y : ℚ} (h : x ≤ y) :
    roundNearestEven x ≤ roundNearestEven y := by
  have hf : ⌊x⌋ ≤ ⌊y⌋ := Int.floor_mono h
  rcases lt_or_eq_of_le hf with hlt | heq
  · have h1 : roundNearestEven x ≤ ⌊x⌋ + 1 := by
      rcases roundNearestEven_cases x with h | h <;> omega
    have h2 := floor_le_roundNearestEven y
    omega
  · have hxy : x - ⌊x⌋ ≤ y - ⌊y⌋ := by
      rw [heq]
      linarith
    unfold roundNearestEven
    rw [heq] at hxy ⊢
    split_ifs <;> first | omega | linarith

theorem roundNearestEven_le (m : ℚ) : (roundNearestEven m : ℚ) ≤ m + 1 / 2 := by
  have h1 := Int.floor_le m
  unfold roundNearestEven
  split_ifs with a b c
  · linarith
  · push_cast
    linarith
  · linarith
  · push_cast
    linarith

theorem round_of_pos {q : ℚ} (hq : 0 < q) :
    round q = (roundNearestEven (q * (2 : ℚ) ^ (52 - Int.log 2 q)) : ℚ) *
      (2 : ℚ) ^ (Int.log 2 q - 52) := by
  unfold round
  rw [if_neg (ne_of_gt hq), abs_of_pos hq]
  simp only [if_pos hq]

theorem mantissa_bounds {q : ℚ} (hq : 0 < q) :
    (2 : ℚ) ^ (52 : ℕ) ≤ q * (2 : ℚ) ^ (52 - Int.log 2 q) ∧
      q * (2 : ℚ) ^ (52 - Int.log 2 q) < (2 : ℚ) ^ (53 : ℕ) := by
  have h1 : ((2 : ℕ) : ℚ) ^ Int.log 2 q ≤ q := Int.zpow_log_le_self (by norm_num) hq
  have h2 : q < ((2 : ℕ) : ℚ) ^ (Int.log 2 q + 1) := Int.lt_zpow_succ_log_self (by norm_num) q
  have hpos : (0 : ℚ) < (2 : ℚ) ^ (52 - Int.log 2 q) := zpow_pos (by norm_num) _
  have e1 : (2 : ℚ) ^ (52 : ℕ) = (2 : ℚ) ^ Int.log 2 q * (2 : ℚ) ^ (52 - Int.log 2 q) := by
    rw [← zpow_add₀ (by norm_num : (2 : ℚ) ≠ 0), ← zpow_natCast]
    congr 1
    push_cast
    ring
  have e2 : (2 : ℚ) ^ (53 : ℕ) = (2 : ℚ) ^ (Int.log 2 q + 1) * (2 : ℚ) ^ (52 - Int.log 2 q) := by
    rw [← zpow_add₀ (by norm_num : (2 : ℚ) ≠ 0), ← zpow_natCast]
    congr 1
    push_cast
    ring
  push_cast at h1 h2
  constructor
  · rw [e1]
    exact mul_le_mul_of_nonneg_right h1 hpos.le
  · rw [e2]
    exact mul_lt_mul_of_pos_right h2 hpos

theorem roundNearestEven_mantissa {q : ℚ} (hq : 0 < q) :
    ((2 : ℚ) ^ (52 : ℕ)) ≤ (roundNearestEven (q * (2 : ℚ) ^ (52 - Int.log 2 q)) : ℚ) ∧
      (roundNearestEven (q * (2 : ℚ) ^ (52 - Int.log 2 q)) : ℚ) ≤ (2 : ℚ) ^ (53 : ℕ) := by
  obtain ⟨h1, h2⟩ := mantissa_bounds hq
  have a1 := roundNearestEven_mono h1
  have a2 := roundNearestEven_mono h2.le
  have c1 : ((2 : ℚ) ^ (52 : ℕ)) = (((2 : Int) ^ (52 : ℕ) : Int) : ℚ) := by push_cast; rfl
  have c2 : ((2 : ℚ) ^ (53 : ℕ)) = (((2 : Int) ^ (53 : ℕ) : Int) : ℚ) := by push_cast; rfl
  rw [c1, roundNearestEven_intCast] at a1
  rw [c2, roundNearestEven_intCast] at a2
  rw [c1, c2]
  exact ⟨Int.cast_le.mpr a1, Int.cast_le.mpr a2⟩

theorem round_zero : round 0 = 0 := by
  unfold round
  simp

theorem round_pos {q : ℚ} (hq : 0 < q) : 0 < round q := by
  rw [round_of_pos hq]
  have h := (roundNearestEven_mantissa hq).1
  have hp : (0 : ℚ) < (2 : ℚ) ^ (Int.log 2 q - 52) := zpow_pos (by norm_num) _
  have : (0 : ℚ) < (2 : ℚ) ^ (52 : ℕ) := by positivity
  exact mul_pos (lt_of_lt_of_le this h) hp

theorem round_mono_pos {x y : ℚ} (hx : 0 < x) (hxy : x ≤ y) : round x ≤ round y := by
  have hy : 0 < y := lt_of_lt_of_le hx hxy
  have hlog : Int.log 2 x ≤ Int.log 2 y := Int.log_mono_right hx hxy
  rw [round_of_pos hx, round_of_pos hy]
  rcases lt_or_eq_of_le hlog with hlt | heq
  · have h1 := (roundNearestEven_mantissa hx).2
    have h2 := (roundNearestEven_mantissa hy).1
    have hp1 : (0 : ℚ) < (2 : ℚ) ^ (Int.log 2 x - 52) := zpow_pos (by norm_num) _
    have hp2 : (0 : ℚ) < (2 : ℚ) ^ (Int.log 2 y - 52) := zpow_pos (by norm_num) _
    calc (roundNearestEven (x * (2 : ℚ) ^ (52 - Int.log 2 x)) : ℚ) * (2 : ℚ) ^ (Int.log 2 x - 52)
        ≤ (2 : ℚ) ^ (53 : ℕ) * (2 : ℚ) ^ (Int.log 2 x - 52) :=
          mul_le_mul_of_nonneg_right h1 hp1.le
      _ = (2 : ℚ) ^ (Int.log 2 x + 1) := by
          rw [← zpow_natCast, ← zpow_add₀ (by norm_num : (2 : ℚ) ≠ 0)]
          congr 1
          push_cast
          ring
      _ ≤ (2 : ℚ) ^ (Int.log 2 y) := zpow_le_zpow_right₀ (by norm_num) (by omega)
      _ = (2 : ℚ) ^ (52 : ℕ) * (2 : ℚ) ^ (Int.log 2 y - 52) := by
          rw [← zpow_natCast, ← zpow_add₀ (by norm_num : (2 : ℚ) ≠ 0)]
          congr 1
          push_cast
          ring
      _ ≤ (roundNearestEven (y * (2 : ℚ) ^ (52 - Int.log 2 y)) : ℚ) *
            (2 : ℚ) ^ (Int.log 2 y - 52) := mul_le_mul_of_nonneg_right h2 hp2.le
  · rw [heq]
    have hp : (0 : ℚ) < (2 : ℚ) ^ (52 - Int.log 2 y) := zpow_pos (by norm_num) _
    have hp2 : (0 : ℚ) < (2 : ℚ) ^ (Int.log 2 y - 52) := zpow_pos (by norm_num) _
    apply mul_le_mul_of_nonneg_right _ hp2.le
    exact Int.cast_le.mpr (roundNearestEven_mono (mul_le_mul_of_nonneg_right hxy hp.le))

theorem round_mono {x y : ℚ} (hx : 0 ≤ x) (hxy : x ≤ y) : round x ≤ round y := by
  rcases lt_or_eq_of_le hx with hpos | h0
  · exact round_mono_pos hpos hxy
  · rw [← h0, round_zero]
    rcases lt_or_eq_of_le (h0 ▸ hxy : (0 : ℚ) ≤ y) with hy | hy
    · exact (round_pos hy).le
    · rw [← hy, round_zero]

theorem round_le {q : ℚ} (hq : 0 < q) : round q ≤ q * (1 + 1 / 2 ^ (53 : ℕ)) := by
  rw [round_of_pos hq]
  have hm := (mantissa_bounds hq).1
  have hr := roundNearestEven_le (q * (2 : ℚ) ^ (52 - Int.log 2 q))
  have hp2 : (0 : ℚ) < (2 : ℚ) ^ (Int.log 2 q - 52) := zpow_pos (by norm_num) _
  have hle : (roundNearestEven (q * (2 : ℚ) ^ (52 - Int.log 2 q)) : ℚ) ≤
      q * (2 : ℚ) ^ (52 - Int.log 2 q) * (1 + 1 / 2 ^ (53 : ℕ)) := by
    have : (1 : ℚ) / 2 ≤ q * (2 : ℚ) ^ (52 - Int.log 2 q) * (1 / 2 ^ (53 : ℕ)) := by
      have h53 : (2 : ℚ) ^ (52 : ℕ) * (1 / 2 ^ (53 : ℕ)) = 1 / 2 := by norm_num
      rw [← h53]
      exact mul_le_mul_of_nonneg_right hm (by positivity)
    linarith
  calc (roundNearestEven (q * (2 : ℚ) ^ (52 - Int.log 2 q)) : ℚ) * (2 : ℚ) ^ (Int.log 2 q - 52)
      ≤ q * (2 : ℚ) ^ (52 - Int.log 2 q) * (1 + 1 / 2 ^ (53 : ℕ)) *
          (2 : ℚ) ^ (Int.log 2 q - 52) := mul_le_mul_of_nonneg_right hle hp2.le
    _ = q * (1 + 1 / 2 ^ (53 : ℕ)) *
          ((2 : ℚ) ^ (52 - Int.log 2 q) * (2 : ℚ) ^ (Int.log 2 q - 52)) := by ring
    _ = q * (1 + 1 / 2 ^ (53 : ℕ)) := by
        rw [← zpow_add₀ (by norm_num : (2 : ℚ) ≠ 0)]
        have : (52 - Int.log 2 q + (Int.log 2 q - 52)) = 0 := by ring
        rw [this, zpow_zero, mul_one]

theorem round_one : round 1 = 1 := by decide!
theorem round_400 : round 400 = 400 := by decide!
theorem round_half_801 : round (801 / 2) = 801 / 2 := by decide!

end Binary64

/-! ## Lemmas on `createHistogram` -/

namespace Histogram

theorem sum_incr (counts : Counts) (val : Nat) (hval : val < 256) :
    ∑ i ∈ Finset.range 256, (counts.incr val).get i =
      ∑ i ∈ Finset.range 256, counts.get i + 1 := by
  have e : ∀ i, (counts.incr val).get i = counts.get i + if i = val then 1 else 0 := by
    intro i
    unfold Counts.incr
    by_cases h : i = val
    · simp [h]
    · simp [h]
  rw [Finset.sum_congr rfl (fun i _ => e i), Finset.sum_add_distrib, Finset.sum_ite_eq',
    if_pos (Finset.mem_range.mpr hval)]

theorem sum_countRow (img : GrayImage) (y : Nat) :
    ∀ (l : List Nat) (c0 : Counts),
      ∑ i ∈ Finset.range 256,
          (l.foldl (fun (counts : Counts) (x : Nat) => counts.incr (img.pixel y x).val) c0).get i =
        ∑ i ∈ Finset.range 256, c0.get i + l.length := by
  intro l
  induction l with
  | nil =>
    intro c0
    simp
  | cons x xs ih =>
    intro c0
    rw [List.foldl_cons, ih, sum_incr c0 _ (img.pixel y x).isLt, List.length_cons]
    omega

theorem sum_countRows (img : GrayImage) :
    ∀ (l : List Nat) (c0 : Counts),
      ∑ i ∈ Finset.range 256,
          (l.foldl
            (fun (counts : Counts) (y : Nat) =>
              (List.range img.cols).foldl
                (fun (counts : Counts) (x : Nat) => counts.incr (img.pixel y x).val) counts)
            c0).get i =
        ∑ i ∈ Finset.range 256, c0.get i + l.length * img.cols := by
  intro l
  induction l with
  | nil =>
    intro c0
    simp
  | cons y ys ih =>
    intro c0
    rw [List.foldl_cons, ih, sum_countRow, List.length_range, List.length_cons,
      Nat.succ_mul]
    omega

theorem sum_countPixels (img : GrayImage) :
    ∑ i ∈ Finset.range 256, (countPixels img).get i = img.rows * img.cols := by
  unfold countPixels
  rw [sum_countRows, List.length_range]
  simp

theorem findMax_loop (counts : Counts) :
    ∀ (l : List Nat) (m0 : Nat),
      m0 ≤ l.foldl (fun (max_count : Nat) (i : Nat) =>
          if counts.get i > max_count then counts.get i else max_count) m0 ∧
        ∀ i, i ∈ l → counts.get i ≤
          l.foldl (fun (max_count : Nat) (i : Nat) =>
            if counts.get i > max_count then counts.get i else max_count) m0 := by
  intro l
  induction l with
  | nil =>
    intro m0
    exact ⟨le_rfl, fun i hi => by cases hi⟩
  | cons a as ih =>
    intro m0
    rw [List.foldl_cons]
    obtain ⟨h1, h2⟩ := ih (if counts.get a > m0 then counts.get a else m0)
    have h3 : m0 ≤ (if counts.get a > m0 then counts.get a else m0) := by
      split <;> omega
    have h4 : counts.get a ≤ (if counts.get a > m0 then counts.get a else m0) := by
      split <;> omega
    refine ⟨le_trans h3 h1, ?_⟩
    intro i hi
    rcases List.mem_cons.mp hi with rfl | hi'
    · exact le_trans h4 h1
    · exact h2 i hi'

theorem le_findMax (counts : Counts) (i : Nat) (hi : i < 256) :
    counts.get i ≤ findMax counts :=
  (findMax_loop counts (List.range 256) 0).2 i (List.mem_range.mpr hi)

theorem findMax_pos (img : GrayImage) (hne : 1 ≤ img.rows * img.cols) :
    0 < findMax (countPixels img) := by
  by_contra h
  have h0 : findMax (countPixels img) = 0 := by omega
  have hz : ∑ i ∈ Finset.range 256, (countPixels img).get i = 0 := by
    apply Finset.sum_eq_zero
    intro i hi
    have := le_findMax (countPixels img) i (Finset.mem_range.mp hi)
    omega
  rw [sum_countPixels] at hz
  omega

theorem natCast_round_bounds (c m : Nat) (hm : 0 < m) (hcm : c ≤ m) :
    0 ≤ Binary64.round (c : ℚ) ∧ Binary64.round (c : ℚ) ≤ Binary64.round (m : ℚ) ∧
      1 ≤ Binary64.round (m : ℚ) := by
  have hc0 : (0 : ℚ) ≤ (c : ℚ) := Nat.cast_nonneg c
  have hcm' : (c : ℚ) ≤ (m : ℚ) := Nat.cast_le.mpr hcm
  have hm1 : (1 : ℚ) ≤ (m : ℚ) := by exact_mod_cast hm
  refine ⟨?_, Binary64.round_mono hc0 hcm', ?_⟩
  · rw [← Binary64.round_zero]
    exact Binary64.round_mono le_rfl hc0
  · rw [← Binary64.round_one]
    exact Binary64.round_mono zero_le_one hm1

theorem toInt_bounds (v : ℚ) (h0 : 0 ≤ v) (h1 : v ≤ 801 / 2) :
    0 ≤ Binary64.toInt v ∧ Binary64.toInt v ≤ 400 := by
  unfold Binary64.toInt
  rw [if_pos h0]
  refine ⟨Int.floor_nonneg.mpr h0, ?_⟩
  have h2 : ((⌊v⌋ : Int) : ℚ) ≤ v := Int.floor_le v
  have h3 : ((⌊v⌋ : Int) : ℚ) < ((401 : Int) : ℚ) := by
    push_cast
    linarith
  have := Int.cast_lt.mp h3
  omega

/-- The bar height of src/histogram.cpp for a count `c <= m` and maximum `m > 0`. -/
theorem barHeight_bounds (counts : Counts) (m i : Nat) (hm : 0 < m) (hcm : counts.get i ≤ m) :
    ∃ height, barHeight counts m i = some height ∧ 0 ≤ height ∧ height ≤ 400 ∧
      (counts.get i = m → height = 400) := by
  obtain ⟨hc0, hcm', hm1⟩ := natCast_round_bounds (counts.get i) m hm hcm
  have hmpos : (0 : ℚ) < Binary64.round (m : ℚ) := by linarith
  have hr0 : 0 ≤ Binary64.round (counts.get i : ℚ) / Binary64.round (m : ℚ) :=
    div_nonneg hc0 hmpos.le
  have hr1 : Binary64.round (counts.get i : ℚ) / Binary64.round (m : ℚ) ≤ 1 :=
    (div_le_one hmpos).mpr hcm'
  have hq0 : 0 ≤ Binary64.round
      (Binary64.round (counts.get i : ℚ) / Binary64.round (m : ℚ)) := by
    rw [← Binary64.round_zero]
    exact Binary64.round_mono le_rfl hr0
  have hq1 : Binary64.round
      (Binary64.round (counts.get i : ℚ) / Binary64.round (m : ℚ)) ≤ 1 := by
    rw [← Binary64.round_one]
    exact Binary64.round_mono hr0 hr1
  have h400 : Binary64.round (HIST_IMG_HEIGHT : ℚ) = 400 := by
    unfold HIST_IMG_HEIGHT
    push_cast
    exact Binary64.round_400
  have hp0 : 0 ≤ Binary64.round
      (Binary64.round (counts.get i : ℚ) / Binary64.round (m : ℚ)) * 400 := by linarith
  have hp1 : Binary64.round
      (Binary64.round (counts.get i : ℚ) / Binary64.round (m : ℚ)) * 400 ≤ 400 := by linarith
  have hs0 : 0 ≤ Binary64.round (Binary64.round
      (Binary64.round (counts.get i : ℚ) / Binary64.round (m : ℚ)) * 400) := by
    rw [← Binary64.round_zero]
    exact Binary64.round_mono le_rfl hp0
  have hs1 : Binary64.round (Binary64.round
      (Binary64.round (counts.get i : ℚ) / Binary64.round (m : ℚ)) * 400) ≤ 400 :=
    le_trans (Binary64.round_mono hp0 hp1) (le_of_eq Binary64.round_400)
  have hdef : barHeight counts m i = some (Binary64.toInt (Binary64.round (Binary64.round
      (Binary64.round (counts.get i : ℚ) / Binary64.round (m : ℚ)) * 400))) := by
    unfold barHeight
    rw [if_neg (by omega), h400]
  refine ⟨_, hdef, ?_, ?_, ?_⟩
  · exact (toInt_bounds _ hs0 (by linarith)).1
  · exact (toInt_bounds _ hs0 (by linarith)).2
  · intro heq
    rw [heq, div_self (ne_of_gt hmpos), Binary64.round_one, one_mul, Binary64.round_400]
    unfold Binary64.toInt
    norm_num

theorem createHistogram_loop (counts : Counts) (m : Nat) (hm : 0 < m) :
    ∀ (l : List Nat) (init : List Line), (∀ i, i ∈ l → counts.get i ≤ m) →
      (∀ ln, ln ∈ init → 0 ≤ ln.y2 ∧ ln.y2 < 400) →
      ∃ drawn,
        l.foldlM
          (fun (drawn : List Line) (i : Nat) =>
            (barHeight counts m i).map fun height =>
              if height = 0 then drawn
              else
                let x1 : Int := (i : Int) * 2
                let x2 : Int := x1 + 1
                let y1 : Int := (HIST_IMG_HEIGHT : Int) - 1
                let y2 : Int := (HIST_IMG_HEIGHT : Int) - height
                drawn ++ [⟨x1, y1, x1, y2⟩, ⟨x2, y1, x2, y2⟩]) init = some drawn ∧
        ∀ ln, ln ∈ drawn → 0 ≤ ln.y2 ∧ ln.y2 < 400 := by
  intro l
  induction l with
  | nil =>
    intro init _ hinit
    exact ⟨init, rfl, hinit⟩
  | cons a as ih =>
    intro init hl hinit
    obtain ⟨height, hh, h0, h400, _⟩ :=
      barHeight_bounds counts m a hm (hl a (List.mem_cons_self _ _))
    rw [List.foldlM_cons, hh]
    simp only [Option.map_some', Option.bind_eq_bind, Option.some_bind]
    apply ih _ (fun i hi => hl i (List.mem_cons_of_mem _ hi))
    intro ln hln
    by_cases hz : height = 0
    · rw [if_pos hz] at hln
      exact hinit ln hln
    · rw [if_neg hz] at hln
      simp only [List.mem_append, List.mem_cons, List.mem_singleton, List.not_mem_nil,
        or_false] at hln
      rcases hln with hln | rfl | rfl
      · exact hinit ln hln
      · simp only [HIST_IMG_HEIGHT]
        constructor <;> omega
      · simp only [HIST_IMG_HEIGHT]
        constructor <;> omega

end Histogram

namespace ThresholdSingle

open Histogram (GrayImage Counts)

theorem computeScale_bounds (m : Nat) (hm : 0 < m) :
    ∃ scale, computeScale m = some scale ∧ 0 ≤ scale ∧
      Binary64.round (m : ℚ) * scale ≤ 801 / 2 := by
  obtain ⟨_, _, hm1⟩ := Histogram.natCast_round_bounds m m hm le_rfl
  have hmpos : (0 : ℚ) < Binary64.round (m : ℚ) := by linarith
  have h400 : Binary64.round (HIST_IMG_HEIGHT : ℚ) = 400 := by
    unfold HIST_IMG_HEIGHT
    push_cast
    exact Binary64.round_400
  have hq : (0 : ℚ) < 400 / Binary64.round (m : ℚ) := div_pos (by norm_num) hmpos
  have hdef : computeScale m = some (Binary64.round (400 / Binary64.round (m : ℚ))) := by
    unfold computeScale
    rw [if_neg (by omega), h400]
  refine ⟨_, hdef, ?_, ?_⟩
  · exact (Binary64.round_pos hq).le
  · have h1 := Binary64.round_le hq
    have h2 : Binary64.round (m : ℚ) * Binary64.round (400 / Binary64.round (m : ℚ)) ≤
        Binary64.round (m : ℚ) * (400 / Binary64.round (m : ℚ) * (1 + 1 / 2 ^ (53 : ℕ))) :=
      mul_le_mul_of_nonneg_left h1 hmpos.le
    have h3 : Binary64.round (m : ℚ) * (400 / Binary64.round (m : ℚ) * (1 + 1 / 2 ^ (53 : ℕ))) =
        400 * (1 + 1 / 2 ^ (53 : ℕ)) := by
      field_simp
      ring
    rw [h3] at h2
    have h4 : (400 : ℚ) * (1 + 1 / 2 ^ (53 : ℕ)) ≤ 801 / 2 := by norm_num
    linarith

/-- The bar height of src/threshold_single.cpp for a count `c <= m` and maximum `m > 0`. -/
theorem barHeight_scale_bounds (counts : Counts) (m i : Nat) (hm : 0 < m)
    (hcm : counts.get i ≤ m) (scale : ℚ) (hs0 : 0 ≤ scale)
    (hs1 : Binary64.round (m : ℚ) * scale ≤ 801 / 2) :
    0 ≤ barHeight counts scale i ∧ barHeight counts scale i ≤ 400 := by
  obtain ⟨hc0, hcm', _⟩ := Histogram.natCast_round_bounds (counts.get i) m hm hcm
  have hp0 : 0 ≤ Binary64.round (counts.get i : ℚ) * scale := mul_nonneg hc0 hs0
  have hp1 : Binary64.round (counts.get i : ℚ) * scale ≤ 801 / 2 :=
    le_trans (mul_le_mul_of_nonneg_right hcm' hs0) hs1
  have hr0 : 0 ≤ Binary64.round (Binary64.round (counts.get i : ℚ) * scale) := by
    rw [← Binary64.round_zero]
    exact Binary64.round_mono le_rfl hp0
  have hr1 : Binary64.round (Binary64.round (counts.get i : ℚ) * scale) ≤ 801 / 2 :=
    le_trans (Binary64.round_mono hp0 hp1) (le_of_eq Binary64.round_half_801)
  unfold barHeight
  exact Histogram.toInt_bounds _ hr0 hr1

theorem createHistogram_rect_loop (counts : Counts) (scale : ℚ) :
    ∀ (l : List Nat) (init : List Rect), (∀ i, i ∈ l → barHeight counts scale i ≤ 400) →
      (∀ r, r ∈ init → 0 ≤ r.y1 ∧ r.y1 < 400) →
      ∀ r, r ∈ l.foldl
          (fun (drawn : List Rect) (i : Nat) =>
            let barHeight := barHeight counts scale i
            if barHeight > 0 then
              let x1 : Int := (i : Int) * 2
              let x2 : Int := x1 + 1
              let y1 : Int := (HIST_IMG_HEIGHT : Int) - barHeight
              let y2 : Int := (HIST_IMG_HEIGHT : Int) - 1
              drawn ++ [⟨x1, y1, x2, y2⟩]
            else drawn) init →
        0 ≤ r.y1 ∧ r.y1 < 400 := by
  intro l
  induction l with
  | nil =>
    intro init _ hinit r hr
    exact hinit r hr
  | cons a as ih =>
    intro init hl hinit r hr
    rw [List.foldl_cons] at hr
    apply ih _ (fun i hi => hl i (List.mem_cons_of_mem _ hi)) _ r hr
    intro r' hr'
    have h400 := hl a (List.mem_cons_self _ _)
    by_cases hpos : barHeight counts scale a > 0
    · simp only [if_pos hpos] at hr'
      simp only [List.mem_append, List.mem_singleton] at hr'
      rcases hr' with hr' | rfl
      · exact hinit r' hr'
      · simp only [HIST_IMG_HEIGHT]
        constructor <;> omega
    · simp only [if_neg hpos] at hr'
      exact hinit r' hr'

end ThresholdSingle

namespace Histogram

/-! ### The image of 97 equal pixels -/

theorem countPixels_97 : (countPixels ⟨1, 97, fun _ _ => 0⟩).get 0 = 97 := by
  decide!

theorem findMax_97 : findMax (countPixels ⟨1, 97, fun _ _ => 0⟩) = 97 := by
  decide!

theorem round_97 : Binary64.round 97 = 97 := by
  decide!

theorem round_scale_97 :
    Binary64.round (400 / 97) = 290180388361501 / 70368744177664 := by
  decide!

theorem round_prod_97 :
    Binary64.round (97 * (290180388361501 / 70368744177664)) =
      7036874417766399 / 17592186044416 := by
  decide!

theorem toInt_prod_97 : Binary64.toInt (7036874417766399 / 17592186044416) = 399 := by
  decide!

theorem computeScale_97 :
    ThresholdSingle.computeScale 97 = some (290180388361501 / 70368744177664) := by
  unfold ThresholdSingle.computeScale ThresholdSingle.HIST_IMG_HEIGHT
  rw [if_neg (by decide)]
  push_cast
  rw [Binary64.round_400, round_97, round_scale_97]

theorem barHeight_scale_97 :
    ThresholdSingle.barHeight (countPixels ⟨1, 97, fun _ _ => 0⟩)
      (290180388361501 / 70368744177664) 0 = 399 := by
  unfold ThresholdSingle.barHeight
  rw [countPixels_97]
  push_cast
  rw [round_97, round_prod_97, toInt_prod_97]

end Histogram

namespace Histogram

/-- Claim C20: for every non-empty grayscale image the 256 counts sum to `rows * cols`
and the maximum count is positive, so no scaling division is by zero; in both definitions
of `createHistogram` every bar height lies in `[0, 400]` and every drawn bar has its top
row inside the 400 rows of the histogram image; in src/histogram.cpp an intensity whose
count equals the maximum gets bar height exactly 400.  In src/threshold_single.cpp it does
not always: for the image of 97 pixels of intensity 0 the maximum count 97 gets bar height
399 (in `double` arithmetic `scale = 400.0 / 97` is `290180388361501 / 2^46` and
`97 * scale` is below 400), where src/histogram.cpp gives 400. -/
theorem createHistogram_props (img : GrayImage) (hne : 1 ≤ img.rows * img.cols) :
    ∑ i ∈ Finset.range 256, (countPixels img).get i = img.rows * img.cols ∧
      ThresholdSingle.countPixels img = countPixels img ∧
      ThresholdSingle.findMax (countPixels img) = findMax (countPixels img) ∧
      0 < findMax (countPixels img) ∧
      (∀ i, i < 256 →
        ∃ height, barHeight (countPixels img) (findMax (countPixels img)) i = some height ∧
          0 ≤ height ∧ height ≤ 400 ∧
          ((countPixels img).get i = findMax (countPixels img) → height = 400)) ∧
      (∃ drawn, createHistogram img = some drawn ∧
        ∀ ln, ln ∈ drawn → 0 ≤ ln.y2 ∧ ln.y2 < 400) ∧
      (∃ scale drawn,
        ThresholdSingle.computeScale (findMax (countPixels img)) = some scale ∧
          (∀ i, i < 256 →
            0 ≤ ThresholdSingle.barHeight (countPixels img) scale i ∧
              ThresholdSingle.barHeight (countPixels img) scale i ≤ 400) ∧
          ThresholdSingle.createHistogram img = some drawn ∧
          ∀ r, r ∈ drawn → 0 ≤ r.y1 ∧ r.y1 < 400) ∧
      ((countPixels ⟨1, 97, fun _ _ => 0⟩).get 0 = 97 ∧
        findMax (countPixels ⟨1, 97, fun _ _ => 0⟩) = 97 ∧
        barHeight (countPixels ⟨1, 97, fun _ _ => 0⟩) 97 0 = some 400 ∧
        ThresholdSingle.computeScale 97 = some (290180388361501 / 70368744177664) ∧
        ThresholdSingle.barHeight (countPixels ⟨1, 97, fun _ _ => 0⟩)
          (290180388361501 / 70368744177664) 0 = 399) := by
  have hpos := findMax_pos img hne
  have hle : ∀ i, i < 256 → (countPixels img).get i ≤ findMax (countPixels img) :=
    fun i hi => le_findMax (countPixels img) i hi
  refine ⟨sum_countPixels img, rfl, rfl, hpos, ?_, ?_, ?_, ?_⟩
  · intro i hi
    exact barHeight_bounds (countPixels img) (findMax (countPixels img)) i hpos (hle i hi)
  · unfold createHistogram
    exact createHistogram_loop (countPixels img) (findMax (countPixels img)) hpos
      (List.range 256) [] (fun i hi => hle i (List.mem_range.mp hi))
      (fun ln hln => by cases hln)
  · obtain ⟨scale, hs, hs0, hs1⟩ :=
      ThresholdSingle.computeScale_bounds (findMax (countPixels img)) hpos
    have hb : ∀ i, i < 256 →
        0 ≤ ThresholdSingle.barHeight (countPixels img) scale i ∧
          ThresholdSingle.barHeight (countPixels img) scale i ≤ 400 :=
      fun i hi => ThresholdSingle.barHeight_scale_bounds (countPixels img)
        (findMax (countPixels img)) i hpos (hle i hi) scale hs0 hs1
    have hdrawn : ∃ drawn, ThresholdSingle.createHistogram img = some drawn ∧
        ∀ r, r ∈ drawn → 0 ≤ r.y1 ∧ r.y1 < 400 := by
      unfold ThresholdSingle.createHistogram
      have e1 : ThresholdSingle.countPixels img = countPixels img := rfl
      have e2 : ThresholdSingle.findMax (countPixels img) = findMax (countPixels img) := rfl
      simp only [e1, e2, hs, Option.map_some']
      exact ⟨_, rfl, ThresholdSingle.createHistogram_rect_loop (countPixels img) scale
        (List.range 256) [] (fun i hi => (hb i (List.mem_range.mp hi)).2)
        (fun r hr => by cases hr)⟩
    obtain ⟨drawn, hd1, hd2⟩ := hdrawn
    exact ⟨scale, drawn, hs, hb, hd1, hd2⟩
  · refine ⟨countPixels_97, findMax_97, ?_, computeScale_97, barHeight_scale_97⟩
    obtain ⟨height, h1, _, _, h4⟩ :=
      barHeight_bounds (countPixels ⟨1, 97, fun _ _ => 0⟩) 97 0 (by decide)
        (le_of_eq countPixels_97)
    rw [h1, h4 countPixels_97]

/-- Witness of `createHistogram_props`: a `2 x 2` image with three pixels of intensity 3
and one of intensity 200. -/
theorem createHistogram_props_witness :
    1 ≤ 2 * 2 ∧
      0 < findMax (countPixels
        ⟨2, 2, fun y x => if y = 0 then 3 else if x = 0 then 3 else 200⟩) :=
  ⟨by decide,
    (createHistogram_props
      ⟨2, 2, fun y x => if y = 0 then 3 else if x = 0 then 3 else 200⟩ (by decide)).2.2.2.1⟩

end Histogram
